import Mathlib

/-!
Verification of the generic piecewise-function container `Piecewise<T>` of
`src/piecewise.h` (lib2geom).

Segments are embedded as exact polynomials over ℚ (`Poly`), a faithful exact
instance of the `FragmentConcept` capability contract the C++ template is
generic over: evaluation, portion (= composition with `Linear(from,to)`),
derivative, integral and the algebra operations are all exact.  The C++
`double` is modelled as ℚ.  `std::vector` indexing `v[i]` is modelled with
`List.getD` (total); the one place where a claim hinges on an out-of-bounds
read (the loop condition of `partition`'s pre-domain loop, which reads
`c[ci]` before testing `ci < c.size()`) is modelled with a checked
`List.get?` read yielding `none`, since an out-of-bounds `operator[]` is
undefined behaviour.  Assertions (`assert(...)`) are modelled by an `Option`
result: `none` means the assertion aborts.
-/

set_option allowUnsafeReducibility true in
attribute [semireducible] Rat.add Rat.mul Rat.sub Rat.div Rat.inv

namespace Geom

/-- Polynomials over ℚ as coefficient lists (coefficient of x^i at index i).
An exact stand-in for the `SBasis` elementary segment type; the default
constructed segment `T()` is the zero polynomial `[]`. -/
abbrev Poly := List ℚ

/-- Horner evaluation of a coefficient list at a local parameter. -/
def Poly.eval (p : Poly) (t : ℚ) : ℚ :=
  p.foldr (fun c acc => c + t * acc) 0

/-- Segment addition (coefficientwise, with padding). -/
def Poly.add : Poly → Poly → Poly
  | [], q => q
  | p, [] => p
  | a :: p, b :: q => (a + b) :: Poly.add p q

/-- Segment negation. -/
def Poly.neg (p : Poly) : Poly := p.map (fun c => -c)

/-- Segment scaled by a scalar (C++ `operator*(T, double)`). -/
def Poly.smul (p : Poly) (b : ℚ) : Poly := p.map (fun c => c * b)

/-- Segment divided by a scalar (C++ `operator/(T, double)`). -/
def Poly.divScalar (p : Poly) (b : ℚ) : Poly := p.map (fun c => c / b)

/-- Segment multiplication (convolution of coefficient lists). -/
def Poly.mul : Poly → Poly → Poly
  | [], _ => []
  | a :: p, q => Poly.add (q.map (fun c => a * c)) (0 :: Poly.mul p q)

/-- Offset a segment by a constant output value (C++ `operator+(T, output_type)`):
adds to the constant coefficient. -/
def Poly.offset : Poly → ℚ → Poly
  | [], k => [k]
  | c :: p, k => (c + k) :: p

/-- Value at the start of the local domain (SBasis `at0()`). -/
def Poly.at0 (p : Poly) : ℚ := Poly.eval p 0

/-- Value at the end of the local domain (SBasis `at1()`). -/
def Poly.at1 (p : Poly) : ℚ := Poly.eval p 1

/-- Composition of `p` with the affine map `Linear(a,b) : s ↦ (1-s)a + sb`,
built by Horner's rule.  This is the exact meaning of the SBasis `portion`
operation (`portion(p, a, b) = compose(p, Linear(a, b))`). -/
def Poly.composeLin (p : Poly) (a b : ℚ) : Poly :=
  p.foldr (fun c acc => Poly.offset (Poly.mul [a, b - a] acc) c) []

/-- Restriction of a segment to a local sub-range (the segment capability
`portion(p, from, to)`), exact for polynomials: composition with
`Linear(from,to)`. -/
def Poly.portion (p : Poly) (a b : ℚ) : Poly := Poly.composeLin p a b

/-- Antiderivative helper: `integralAux k [a₀, a₁, …] = [a₀/k, a₁/(k+1), …]`. -/
def Poly.integralAux : ℕ → Poly → Poly
  | _, [] => []
  | k, a :: p => (a / (k : ℚ)) :: Poly.integralAux (k + 1) p

/-- Exact antiderivative with zero constant term (segment capability `integral`). -/
def Poly.integral (p : Poly) : Poly := 0 :: Poly.integralAux 1 p

/-- Derivative helper: `derivAux k [a₀, a₁, …] = [a₀·k, a₁·(k+1), …]`. -/
def Poly.derivAux : ℕ → Poly → Poly
  | _, [] => []
  | k, a :: p => (a * (k : ℚ)) :: Poly.derivAux (k + 1) p

/-- Exact derivative (segment capability `derivative`). -/
def Poly.deriv : Poly → Poly
  | [] => []
  | _ :: p => Poly.derivAux 1 p

/-- The piecewise container: an ordered cut sequence and one fewer segments;
`segs[i]` stretches from `cuts[i]` to `cuts[i+1]`. -/
structure Pw where
  cuts : List ℚ
  segs : List Poly
deriving DecidableEq

/-- C++ `size()`: the number of segments. -/
def Pw.size (f : Pw) : ℕ := f.segs.length

/-- C++ `empty()`. -/
def Pw.isEmptyPw (f : Pw) : Bool := f.segs.isEmpty

/-- C++ `invariants()`: `segs.size() + 1 == cuts.size()` or both empty, and
cuts strictly increasing (the loop checks `cuts[i] >= cuts[i+1]` for
`i < segs.size()` after the size check has passed). -/
def Pw.invariants (f : Pw) : Bool :=
  if f.segs.length + 1 = f.cuts.length ∨ (f.segs = [] ∧ f.cuts = []) then
    (List.range f.segs.length).all fun i =>
      decide (f.cuts.getD i 0 < f.cuts.getD (i + 1) 0)
  else false

/-- The binary-search loop of C++ `segN`.  `low`/`high` are C++ `int`s that
stay nonnegative on every reachable path, so they are modelled as ℕ (the
`mid - 1` read only happens when `mid > low ≥ 0` under the loop invariant
`cuts[low] ≤ t`).  `fuel` is structural-recursion bookkeeping only: the loop
runs at most `high - low` iterations and every caller supplies at least
that much, so the `fuel = 0` fallback is never reached. -/
def segNGo (fuel : ℕ) (cuts : List ℚ) (t : ℚ) (low high : ℕ) : ℕ :=
  match fuel with
  | 0 => low
  | fuel + 1 =>
    if low < high then
      let mid := (high + low) / 2
      let mv := cuts.getD mid 0
      if mv < t then
        if t < cuts.getD (mid + 1) 0 then mid else segNGo fuel cuts t (mid + 1) high
      else if t < mv then
        if cuts.getD (mid - 1) 0 < t then mid - 1 else segNGo fuel cuts t low (mid - 1)
      else mid
    else low

/-- C++ `segN(t, low)` (the explicit-`low` overload used by `portion`); the
default `high = -1` always resolves to `size()`. -/
def Pw.segNL (f : Pw) (t : ℚ) (low : ℕ) : ℕ :=
  if t < f.cuts.getD 0 0 then 0
  else if f.cuts.getD f.size 0 ≤ t then f.size - 1
  else segNGo f.size f.cuts t low f.size

/-- C++ `segN(t)`. -/
def Pw.segN (f : Pw) (t : ℚ) : ℕ := f.segNL t 0

/-- C++ `segT(t, i)`: local time within segment `i`. -/
def Pw.segT (f : Pw) (t : ℚ) (i : ℕ) : ℚ :=
  (t - f.cuts.getD i 0) / (f.cuts.getD (i + 1) 0 - f.cuts.getD i 0)

/-- C++ `valueAt(t)`: find the owning segment and evaluate. -/
def Pw.valueAt (f : Pw) (t : ℚ) : ℚ :=
  let n := f.segN t
  Poly.eval (f.segs.getD n []) (f.segT t n)

/-- `valueAt` with the two unconditional `cuts` reads of `segN` (`cuts[0]`
and `cuts[size()]`) bounds-checked; `none` records that the C++ evaluation
performs an out-of-bounds read (undefined behaviour).  For any container
with `invariants()` these reads are in bounds and the checked and unchecked
versions agree. -/
def Pw.valueAtChecked (f : Pw) (t : ℚ) : Option ℚ :=
  match f.cuts.get? 0, f.cuts.get? f.size with
  | some _, some _ => some (f.valueAt t)
  | _, _ => none

/-- C++ `scaleDomain(s)`: `assert(s > 0)` (modelled as `none` when it fails),
then a dead `s == 0` branch clearing the container, then `cuts[i] *= s` for
all cuts (written as `map` — identical for any container with
`invariants()`). -/
def Pw.scaleDomain (f : Pw) (s : ℚ) : Option Pw :=
  if 0 < s then
    if s = 0 then some ⟨[], []⟩
    else some ⟨f.cuts.map (fun c => c * s), f.segs⟩
  else none

/-- C++ `elem_portion(a, i, from, to)`: restriction of segment `i` to the
global range `[from, to]` by remapping into local coordinates.  (The C++
asserts `i < a.size()`, true at every call site modelled here.) -/
def elem_portion (a : Pw) (i : ℕ) (lo hi : ℚ) : Poly :=
  let rwidth := 1 / (a.cuts.getD (i + 1) 0 - a.cuts.getD i 0)
  Poly.portion (a.segs.getD i [])
    ((lo - a.cuts.getD i 0) * rwidth) ((hi - a.cuts.getD i 0) * rwidth)

/-- C++ `portion(pw, from, to)`: restriction to `[min(from,to), max(from,to)]`.
The final `ret.invariants()` self-check in the source discards its result and
is therefore not part of the behaviour. -/
def portion (pw : Pw) (fm tv : ℚ) : Pw :=
  if pw.segs = [] ∨ fm = tv then ⟨[], []⟩
  else
    let f := min fm tv
    let t := max fm tv
    let i := pw.segN f
    if i = pw.size - 1 ∨ t < pw.cuts.getD (i + 1) 0 then
      ⟨[f, t], [elem_portion pw i f t]⟩
    else
      let s0 := Poly.portion (pw.segs.getD i []) (pw.segT f i) 1
      let i1 := i + 1
      let fi := pw.segNL t i1
      let midS := (pw.segs.drop i1).take (fi - i1)
      let midC := (pw.cuts.drop i1).take (fi + 1 - i1)
      let lastS := Poly.portion (pw.segs.getD fi []) 0 (pw.segT t fi)
      let cuts0 := f :: midC
      let segs0 := s0 :: (midS ++ [lastS])
      if t = List.getLastD cuts0 0 then ⟨cuts0, segs0⟩
      else ⟨cuts0 ++ [t], segs0⟩

/-- The pre-domain loop of C++ `partition`:
`while(c[ci] < pw.cuts.front() && ci < c.size()) { … ci++; }`.
The loop condition reads `c[ci]` BEFORE testing `ci < c.size()`, so when
every value of `c` is below the domain the final iteration reads
`c[c.size()]` out of bounds; that read is modelled by `c.get? ci = none`
and the whole call collapses to `none` (undefined behaviour).
Returns the exit value of `ci` and the cut/segment prefixes pushed.
`fuel` is structural-recursion bookkeeping only; callers supply more than
the possible number of iterations, so `fuel = 0` is never reached. -/
def partPre (fuel : ℕ) (pw : Pw) (c : List ℚ) (ci : ℕ) : Option (ℕ × List ℚ × List Poly) :=
  match fuel with
  | 0 => none
  | fuel + 1 =>
    match c.get? ci with
    | none => none
    | some v =>
      if v < pw.cuts.getD 0 0 then
        let isLast := ci = c.length - 1 ∨ pw.cuts.getD 0 0 ≤ c.getD (ci + 1) 0
        match partPre fuel pw c (ci + 1) with
        | none => none
        | some (ci', K, S) =>
          some (ci', v :: K,
            elem_portion pw 0 v
              (if isLast then pw.cuts.getD 0 0 else c.getD (ci + 1) 0) :: S)
      else some (ci, [], [])

/-- The closing loop of C++ `partition`: input cuts extending beyond the
domain extend the last segment.  (`fuel` as in `partPre`.) -/
def partPost (fuel : ℕ) (pw : Pw) (c : List ℚ) (ci : ℕ) (prev : ℚ) : List ℚ × List Poly :=
  match fuel with
  | 0 => ([], [])
  | fuel + 1 =>
    if ci < c.length then
      if prev < c.getD ci 0 then
        let r := partPost fuel pw c (ci + 1) (c.getD ci 0)
        (c.getD ci 0 :: r.1, elem_portion pw (pw.size - 1) prev (c.getD ci 0) :: r.2)
      else partPost fuel pw c (ci + 1) prev
    else ([], [])

/-- The main loop of C++ `partition` handling cuts within the domain.  The
"cuts exhausted" branch returns the function directly in the C++; since it
only triggers with `ci = c.size()`, on which the closing loop is a no-op,
falling through to `partPost` on loop exit is behaviourally identical and is
how the early return is modelled.  (`fuel` as in `partPre`; on loop exit the
remaining fuel, which still exceeds the closing loop's iteration count, is
handed to `partPost`.) -/
def partLoop (fuel : ℕ) (pw : Pw) (c : List ℚ) (si ci : ℕ) (prev : ℚ) : List ℚ × List Poly :=
  match fuel with
  | 0 => ([], [])
  | fuel + 1 =>
    if si < pw.size ∧ ci ≤ c.length then
      if ci = c.length ∧ prev ≤ pw.cuts.getD si 0 then
        (pw.cuts.drop (si + 1), pw.segs.drop si)
      else if ci = c.length ∨ pw.cuts.getD (si + 1) 0 ≤ c.getD ci 0 then
        let sg := if pw.cuts.getD si 0 < prev
                  then Poly.portion (pw.segs.getD si []) (pw.segT prev si) 1
                  else pw.segs.getD si []
        let r := partLoop fuel pw c (si + 1) ci (pw.cuts.getD (si + 1) 0)
        (pw.cuts.getD (si + 1) 0 :: r.1, sg :: r.2)
      else if c.getD ci 0 = pw.cuts.getD si 0 then
        partLoop fuel pw c si (ci + 1) prev
      else
        let r := partLoop fuel pw c si (ci + 1) (c.getD ci 0)
        (c.getD ci 0 :: r.1, elem_portion pw si prev (c.getD ci 0) :: r.2)
    else partPost fuel pw c ci prev

/-- C++ `partition(pw, c)` (precondition: `c` sorted ascending): subdivide so
that there is a cut at every value of `c`.  `none` records the out-of-bounds
read of the pre-domain loop (see `partPre`). -/
def partition (pw : Pw) (c : List ℚ) : Option Pw :=
  if c = [] then some pw
  else if pw.segs = [] then some ⟨c, List.replicate (c.length - 1) []⟩
  else
    match partPre (c.length + 1) pw c 0 with
    | none => none
    | some (ci, K, S) =>
      let r := partLoop (pw.size + c.length + 2) pw c 0 ci (pw.cuts.getD 0 0)
      some ⟨K ++ pw.cuts.getD 0 0 :: r.1, S ++ r.2⟩

/-- C++ `operator+(Piecewise, Piecewise)`: mutually partition, then
`assert(pa.size() == pb.size())` (modelled as `none` on failure) and add
segment-pairwise. -/
def pwAdd (a b : Pw) : Option Pw :=
  match partition a b.cuts, partition b a.cuts with
  | some pa, some pb =>
    if pa.size = pb.size then
      some ⟨pa.cuts, List.zipWith Poly.add pa.segs pb.segs⟩
    else none
  | _, _ => none

/-- C++ `operator*(Piecewise, Piecewise)`: mutually partition, then
`assert(pa.size() == pb.size())` and multiply segment-pairwise. -/
def pwMul (a b : Pw) : Option Pw :=
  match partition a b.cuts, partition b a.cuts with
  | some pa, some pb =>
    if pa.size = pb.size then
      some ⟨pa.cuts, List.zipWith Poly.mul pa.segs pb.segs⟩
    else none
  | _, _ => none

/-- The segment loop of C++ `integral(Piecewise)`: per segment take the
antiderivative scaled by the segment width, shift it by `c - at0` so the
running result is continuous, and thread `c := at1` forward. -/
def integralSegs : List Poly → List ℚ → ℚ → List Poly
  | p :: ps, c0 :: c1 :: cr, k =>
    let s0 := Poly.smul (Poly.integral p) (c1 - c0)
    let s := Poly.offset s0 (k - Poly.at0 s0)
    s :: integralSegs ps (c1 :: cr) (Poly.at1 s)
  | _, _, _ => []

/-- C++ `integral(Piecewise)`; the running constant is seeded from
`a.segs[0].at0()`. -/
def pwIntegral (a : Pw) : Pw :=
  ⟨a.cuts, integralSegs a.segs a.cuts (Poly.at0 (a.segs.getD 0 []))⟩

/-- The segment loop of C++ `derivative(Piecewise)`. -/
def derivSegs : List Poly → List ℚ → List Poly
  | p :: ps, c0 :: c1 :: cr => Poly.divScalar (Poly.deriv p) (c1 - c0) :: derivSegs ps (c1 :: cr)
  | _, _ => []

/-- C++ `derivative(Piecewise)`. -/
def pwDerivative (a : Pw) : Pw :=
  ⟨a.cuts, derivSegs a.segs a.cuts⟩

/-- C++ unsigned 32-bit value. -/
def u32 (n : ℕ) : ℕ := n % 2 ^ 32

/-- C++ unsigned 32-bit subtraction (wraps modulo `2^32`). -/
def u32sub (a b : ℕ) : ℕ := (u32 a + 2 ^ 32 - u32 b) % 2 ^ 32

/-- Conversion of a 32-bit unsigned value to C++ `int` (wraps into
`[-2^31, 2^31)`). -/
def toInt32 (n : ℕ) : ℤ :=
  if n % 2 ^ 32 < 2 ^ 31 then (n % 2 ^ 32 : ℤ) else (n % 2 ^ 32 : ℤ) - 2 ^ 32

/-- The consistency check guarding each step of the general path of
C++ `compose(Piecewise<T>, SBasis)`:
`assert(std::abs(int((*cut).second-(*next).second))<1)` for time-adjacent
pullback entries tagged with segment indices `a` and `b`.  `false` means the
assertion aborts and composition does not proceed. -/
def composeAssertCond (a b : ℕ) : Bool :=
  (toInt32 (u32sub a b)).natAbs < 1

/-! ## Segment-level lemmas: the `Poly` instance is exact -/

theorem Poly.eval_nil (t : ℚ) : Poly.eval [] t = 0 := rfl

theorem Poly.eval_cons (c : ℚ) (p : Poly) (t : ℚ) :
    Poly.eval (c :: p) t = c + t * Poly.eval p t := rfl

theorem Poly.eval_add (p q : Poly) (t : ℚ) :
    Poly.eval (Poly.add p q) t = Poly.eval p t + Poly.eval q t := by
  induction p generalizing q with
  | nil => simp [Poly.add, Poly.eval_nil]
  | cons a p ih =>
    cases q with
    | nil => simp [Poly.add, Poly.eval_nil]
    | cons b q => simp only [Poly.add, Poly.eval_cons, ih]; ring

theorem Poly.eval_map_mul (a : ℚ) (q : Poly) (t : ℚ) :
    Poly.eval (q.map (fun c => a * c)) t = a * Poly.eval q t := by
  induction q with
  | nil => simp [Poly.eval_nil]
  | cons b q ih => simp only [List.map_cons, Poly.eval_cons, ih]; ring

theorem Poly.eval_mul (p q : Poly) (t : ℚ) :
    Poly.eval (Poly.mul p q) t = Poly.eval p t * Poly.eval q t := by
  induction p with
  | nil => simp [Poly.mul, Poly.eval_nil]
  | cons a p ih =>
    simp only [Poly.mul, Poly.eval_add, Poly.eval_map_mul, Poly.eval_cons, ih]
    ring

theorem Poly.eval_offset (p : Poly) (k t : ℚ) :
    Poly.eval (Poly.offset p k) t = Poly.eval p t + k := by
  cases p with
  | nil => simp [Poly.offset, Poly.eval_cons, Poly.eval_nil]
  | cons c p => simp only [Poly.offset, Poly.eval_cons]; ring

theorem Poly.eval_smul (p : Poly) (b t : ℚ) :
    Poly.eval (Poly.smul p b) t = Poly.eval p t * b := by
  induction p with
  | nil => simp [Poly.smul, Poly.eval_nil]
  | cons c p ih => simp only [Poly.smul, List.map_cons, Poly.eval_cons] at *; rw [ih]; ring

theorem Poly.eval_divScalar (p : Poly) (b t : ℚ) :
    Poly.eval (Poly.divScalar p b) t = Poly.eval p t / b := by
  induction p with
  | nil => simp [Poly.divScalar, Poly.eval_nil]
  | cons c p ih =>
    simp only [Poly.divScalar, List.map_cons, Poly.eval_cons] at *
    rw [ih, add_div, mul_div_assoc]

theorem Poly.eval_composeLin (p : Poly) (a b t : ℚ) :
    Poly.eval (Poly.composeLin p a b) t = Poly.eval p (a + (b - a) * t) := by
  induction p with
  | nil => simp [Poly.composeLin, Poly.eval_nil]
  | cons c p ih =>
    simp only [Poly.composeLin, List.foldr] at *
    rw [Poly.eval_offset, Poly.eval_mul, ih, Poly.eval_cons]
    simp [Poly.eval_cons, Poly.eval_nil]
    ring

/-- The key exactness property of segment restriction: evaluating
`portion(p, a, b)` at local time `s` gives `p` at `(1-s)a + sb`. -/
theorem Poly.eval_portion (p : Poly) (a b s : ℚ) :
    Poly.eval (Poly.portion p a b) s = Poly.eval p ((1 - s) * a + s * b) := by
  rw [Poly.portion, Poly.eval_composeLin]; ring_nf

/-! ## Container well-formedness and `segN` correctness -/

/-- What `invariants` computes, in propositional form. -/
theorem Pw.invariants_iff (f : Pw) :
    f.invariants = true ↔
      (f.segs = [] ∧ f.cuts = []) ∨
      (f.cuts.length = f.segs.length + 1 ∧ f.cuts.Chain' (· < ·)) := by
  rw [Pw.invariants]
  split_ifs with h
  · rw [List.all_eq_true]
    constructor
    · intro hall
      rcases h with h | h
      · refine Or.inr ⟨h.symm, ?_⟩
        rw [List.chain'_iff_get]
        intro i hi
        have hmem : i ∈ List.range f.segs.length := by
          rw [List.mem_range]; omega
        have := of_decide_eq_true (hall i hmem)
        rw [List.getD_eq_get _ _ (by omega), List.getD_eq_get _ _ (by omega)] at this
        exact this
      · exact Or.inl ⟨h.1, h.2⟩
    · intro hrh i hmem
      rw [List.mem_range] at hmem
      rcases hrh with ⟨hs, hc⟩ | ⟨hlen, hch⟩
      · rw [hs] at hmem; simp at hmem
      · rw [List.chain'_iff_get] at hch
        have := hch i (by omega)
        apply decide_eq_true
        rw [List.getD_eq_get _ _ (by omega), List.getD_eq_get _ _ (by omega)]
        exact this
  · constructor
    · intro hfalse; exact absurd hfalse (by simp)
    · intro hrh
      exfalso
      rcases hrh with ⟨hs, hc⟩ | ⟨hlen, _⟩
      · exact h (Or.inr ⟨hs, hc⟩)
      · exact h (Or.inl hlen.symm)

/-- Strictly increasing cut lists are strictly monotone under `getD`. -/
theorem chain_getD_lt (l : List ℚ) (hch : l.Chain' (· < ·)) {i j : ℕ}
    (hij : i < j) (hj : j < l.length) : l.getD i 0 < l.getD j 0 := by
  rw [List.chain'_iff_pairwise] at hch
  rw [List.pairwise_iff_get] at hch
  have := hch ⟨i, by omega⟩ ⟨j, by omega⟩ (by simpa using hij)
  rw [List.getD_eq_get _ _ (by omega), List.getD_eq_get _ _ (by omega)]
  exact this

/-- Monotone (non-strict) version of `chain_getD_lt`. -/
theorem chain_getD_le (l : List ℚ) (hch : l.Chain' (· < ·)) {i j : ℕ}
    (hij : i ≤ j) (hj : j < l.length) : l.getD i 0 ≤ l.getD j 0 := by
  rcases Nat.eq_or_lt_of_le hij with rfl | h
  · exact le_refl _
  · exact le_of_lt (chain_getD_lt l hch h hj)

/-- Correctness of the binary-search loop `segNGo`: under the container
invariants and the loop invariant `cuts[low] ≤ t ≤ cuts[high]`, with enough
fuel, it returns the unique segment index whose cut interval contains `t`. -/
theorem segNGo_spec (cuts : List ℚ) (t : ℚ) (hch : cuts.Chain' (· < ·))
    (n : ℕ) (hlen : cuts.length = n + 1) (ht : t < cuts.getD n 0) :
    ∀ fuel low high, high - low ≤ fuel → low ≤ high → high ≤ n →
      cuts.getD low 0 ≤ t → t ≤ cuts.getD high 0 →
      cuts.getD (segNGo fuel cuts t low high) 0 ≤ t ∧
      t < cuts.getD (segNGo fuel cuts t low high + 1) 0 ∧
      segNGo fuel cuts t low high < n := by
  intro fuel
  induction fuel with
  | zero =>
    intro low high hfuel hlh hhn hlowt hthigh
    have hlh' : low = high := by omega
    subst hlh'
    have hteq : t = cuts.getD low 0 := le_antisymm hthigh hlowt
    have hlow_n : low < n := by
      by_contra hc
      have hln : low = n := by omega
      rw [hln] at hteq
      rw [← hteq] at ht
      exact absurd ht (lt_irrefl t)
    have hres : segNGo 0 cuts t low low = low := rfl
    rw [hres]
    exact ⟨hlowt,
      by rw [hteq]; exact chain_getD_lt cuts hch (Nat.lt_succ_self low) (by omega),
      hlow_n⟩
  | succ fuel ih =>
    intro low high hfuel hlh hhn hlowt hthigh
    rw [segNGo]
    by_cases hlow : low < high
    · simp only [if_pos hlow]
      set mid := (high + low) / 2 with hmid
      have hmid_ge : low ≤ mid := by omega
      have hmid_lt : mid < high := by omega
      by_cases h1 : cuts.getD mid 0 < t
      · simp only [if_pos h1]
        by_cases h2 : t < cuts.getD (mid + 1) 0
        · simp only [if_pos h2]
          exact ⟨le_of_lt h1, h2, by omega⟩
        · simp only [if_neg h2]
          exact ih (mid + 1) high (by omega) (by omega) hhn (le_of_not_lt h2) hthigh
      · simp only [if_neg h1]
        by_cases h2 : t < cuts.getD mid 0
        · simp only [if_pos h2]
          have hmidlow : low < mid := by
            by_contra hc
            have hle : cuts.getD mid 0 ≤ cuts.getD low 0 :=
              chain_getD_le cuts hch (by omega) (by omega)
            exact absurd (lt_of_le_of_lt (le_trans hle hlowt) h2) (lt_irrefl _)
          by_cases h3 : cuts.getD (mid - 1) 0 < t
          · simp only [if_pos h3]
            have hmm : mid - 1 + 1 = mid := by omega
            exact ⟨le_of_lt h3, by rw [hmm]; exact h2, by omega⟩
          · simp only [if_neg h3]
            exact ih low (mid - 1) (by omega) (by omega) (by omega) hlowt (le_of_not_lt h3)
        · simp only [if_neg h2]
          have hteq : t = cuts.getD mid 0 := le_antisymm (le_of_not_lt h1) (le_of_not_lt h2)
          have hmidn : mid < n := by omega
          refine ⟨le_of_eq hteq.symm, ?_, hmidn⟩
          rw [hteq]
          exact chain_getD_lt cuts hch (Nat.lt_succ_self mid) (by omega)
    · simp only [if_neg hlow]
      have hlh' : low = high := by omega
      subst hlh'
      have hteq : t = cuts.getD low 0 := le_antisymm hthigh hlowt
      have hlow_n : low < n := by
        by_contra hc
        have hln : low = n := by omega
        rw [hln] at hteq
        rw [← hteq] at ht
        exact absurd ht (lt_irrefl t)
      refine ⟨hlowt, ?_, hlow_n⟩
      rw [hteq]
      exact chain_getD_lt cuts hch (Nat.lt_succ_self low) (by omega)

/-- Correctness of `segNL` for `t` inside the domain and a `low` hint that
does not overshoot `t`'s segment. -/
theorem Pw.segNL_spec (f : Pw) (t : ℚ) (low : ℕ)
    (hlen : f.cuts.length = f.segs.length + 1) (hch : f.cuts.Chain' (· < ·))
    (hlow : low ≤ f.size) (hlowle : f.cuts.getD low 0 ≤ t)
    (htback : t < f.cuts.getD f.size 0) :
    f.cuts.getD (f.segNL t low) 0 ≤ t ∧
    t < f.cuts.getD (f.segNL t low + 1) 0 ∧ f.segNL t low < f.size := by
  have hfront : f.cuts.getD 0 0 ≤ t :=
    le_trans (chain_getD_le f.cuts hch (Nat.zero_le low) (by simp [Pw.size] at *; omega)) hlowle
  rw [Pw.segNL, if_neg (not_lt_of_le hfront), if_neg (not_le_of_lt htback)]
  exact segNGo_spec f.cuts t hch f.size (by simpa [Pw.size] using hlen) htback
    f.size low f.size (by omega) hlow (le_refl _) hlowle (le_of_lt htback)

/-- `segN` sends an in-domain, pre-final-cut time to the segment whose cut
interval contains it. -/
theorem Pw.segN_spec (f : Pw) (t : ℚ)
    (hlen : f.cuts.length = f.segs.length + 1) (hch : f.cuts.Chain' (· < ·))
    (hfront : f.cuts.getD 0 0 ≤ t) (htback : t < f.cuts.getD f.size 0) :
    f.cuts.getD (f.segN t) 0 ≤ t ∧
    t < f.cuts.getD (f.segN t + 1) 0 ∧ f.segN t < f.size :=
  f.segNL_spec t 0 hlen hch (Nat.zero_le _) hfront htback

/-- Below the domain, `segN` clamps to the first segment. -/
theorem Pw.segNL_low (f : Pw) (t : ℚ) (low : ℕ) (h : t < f.cuts.getD 0 0) :
    f.segNL t low = 0 := by
  rw [Pw.segNL, if_pos h]

/-- At or above the final cut, `segN` clamps to the last segment. -/
theorem Pw.segNL_high (f : Pw) (t : ℚ) (low : ℕ)
    (h0 : ¬t < f.cuts.getD 0 0) (h : f.cuts.getD f.size 0 ≤ t) :
    f.segNL t low = f.size - 1 := by
  rw [Pw.segNL, if_neg h0, if_pos h]

/-- A cut interval containing `t` is unique. -/
theorem segIdx_unique (cuts : List ℚ) (hch : cuts.Chain' (· < ·)) {t : ℚ}
    {j k : ℕ} (hjlen : j + 1 < cuts.length) (hklen : k + 1 < cuts.length)
    (hj1 : cuts.getD j 0 ≤ t) (hj2 : t < cuts.getD (j + 1) 0)
    (hk1 : cuts.getD k 0 ≤ t) (hk2 : t < cuts.getD (k + 1) 0) : j = k := by
  by_contra hne
  rcases Nat.lt_or_ge j k with h | h
  · have hle : cuts.getD (j + 1) 0 ≤ cuts.getD k 0 :=
      chain_getD_le cuts hch (by omega) (by omega)
    exact absurd (lt_of_lt_of_le hj2 (le_trans hle hk1)) (lt_irrefl t)
  · have hkj : k < j := by omega
    have hle : cuts.getD (k + 1) 0 ≤ cuts.getD j 0 :=
      chain_getD_le cuts hch (by omega) (by omega)
    exact absurd (lt_of_lt_of_le hk2 (le_trans hle hj1)) (lt_irrefl t)

/-! ## Partition by one's own cuts -/

/-- The closing loop does nothing once the cut index is exhausted. -/
theorem partPost_done (pw : Pw) (c : List ℚ) (fuel ci : ℕ) (prev : ℚ)
    (h : c.length ≤ ci) : partPost fuel pw c ci prev = ([], []) := by
  cases fuel with
  | zero => rfl
  | succ m => rw [partPost, if_neg (not_lt_of_le h)]

/-- The closing loop does nothing when `prev` already equals the final cut
and the only remaining input cut is that same value. -/
theorem partPost_self (f : Pw) (hlen : f.cuts.length = f.segs.length + 1)
    (fuel : ℕ) :
    partPost fuel f f.cuts f.size (f.cuts.getD f.size 0) = ([], []) := by
  cases fuel with
  | zero => rfl
  | succ m =>
    rw [partPost, if_pos (by simp only [Pw.size]; omega),
      if_neg (lt_irrefl (f.cuts.getD f.size 0))]
    exact partPost_done f f.cuts m (f.size + 1) _ (by simp only [Pw.size]; omega)

/-- Running the main partition loop of `partition(f, f.cuts)` from any
segment index copies the remaining cuts and segments verbatim: each segment
takes one coincident-skip step followed by one plain-copy finalize step. -/
theorem partLoop_self (f : Pw) (hlen : f.cuts.length = f.segs.length + 1)
    (hch : f.cuts.Chain' (· < ·)) :
    ∀ k fuel si, si + k = f.size → 2 * k + 1 ≤ fuel →
      partLoop fuel f f.cuts si si (f.cuts.getD si 0) =
        (f.cuts.drop (si + 1), f.segs.drop si) := by
  intro k
  induction k with
  | zero =>
    intro fuel si hsi hfuel
    obtain ⟨m, rfl⟩ : ∃ m, fuel = m + 1 := ⟨fuel - 1, by omega⟩
    have hsz : si = f.size := by omega
    subst hsz
    rw [partLoop, if_neg (by simp only [Pw.size]; omega)]
    rw [partPost_self f hlen]
    have h1 : f.cuts.drop (f.size + 1) = [] :=
      List.drop_eq_nil_of_le (by simp only [Pw.size]; omega)
    have h2 : f.segs.drop f.size = [] :=
      List.drop_eq_nil_of_le (by simp only [Pw.size]; omega)
    rw [h1, h2]
  | succ k ih =>
    intro fuel si hsi hfuel
    obtain ⟨m, rfl⟩ : ∃ m, fuel = m + 1 := ⟨fuel - 1, by omega⟩
    obtain ⟨m', rfl⟩ : ∃ m', m = m' + 1 := ⟨m - 1, by omega⟩
    have hsz : f.size = f.segs.length := rfl
    have hsis : si < f.size := by omega
    have hsilen : si + 1 < f.cuts.length := by omega
    have hlt : f.cuts.getD si 0 < f.cuts.getD (si + 1) 0 :=
      chain_getD_lt f.cuts hch (Nat.lt_succ_self si) hsilen
    rw [partLoop, if_pos (⟨hsis, by omega⟩ : si < f.size ∧ si ≤ f.cuts.length)]
    rw [if_neg (by rintro ⟨hc, -⟩; omega)]
    rw [if_neg (by
      rintro (hc | hc)
      · omega
      · exact absurd hlt (not_lt_of_le hc))]
    rw [if_pos rfl]
    rw [partLoop, if_pos (⟨hsis, by omega⟩ : si < f.size ∧ si + 1 ≤ f.cuts.length)]
    rw [if_neg (by rintro ⟨hc, -⟩; omega)]
    rw [if_pos (Or.inr (le_refl (f.cuts.getD (si + 1) 0)))]
    rw [if_neg (lt_irrefl (f.cuts.getD si 0))]
    rw [ih m' (si + 1) (by omega) (by omega)]
    have hc1 : f.cuts.drop (si + 1) = f.cuts.getD (si + 1) 0 :: f.cuts.drop (si + 1 + 1) := by
      rw [List.getD_eq_getElem f.cuts 0 hsilen]
      exact List.drop_eq_getElem_cons hsilen
    have hs1 : f.segs.drop si = f.segs.getD si [] :: f.segs.drop (si + 1) := by
      have hsl : si < f.segs.length := by omega
      rw [List.getD_eq_getElem f.segs [] hsl]
      exact List.drop_eq_getElem_cons hsl
    rw [hc1, hs1]

/-- Unfolding `partition` when the pre-domain loop exits normally. -/
theorem partition_eq (pw : Pw) (c : List ℚ) (hcne : ¬c = []) (hne : ¬pw.segs = [])
    (ci : ℕ) (K : List ℚ) (S : List Poly)
    (hpre : partPre (c.length + 1) pw c 0 = some (ci, K, S)) :
    partition pw c =
      some ⟨K ++ pw.cuts.getD 0 0 ::
              (partLoop (pw.size + c.length + 2) pw c 0 ci (pw.cuts.getD 0 0)).1,
            S ++ (partLoop (pw.size + c.length + 2) pw c 0 ci (pw.cuts.getD 0 0)).2⟩ := by
  rw [partition, if_neg hcne, if_neg hne, hpre]

/-- The pre-domain loop exits immediately when the first extra cut is not
below the domain. -/
theorem partPre_exit (pw : Pw) (c : List ℚ) (fuel ci : ℕ) (v : ℚ)
    (hv : c.get? ci = some v) (hge : ¬v < pw.cuts.getD 0 0) :
    partPre (fuel + 1) pw c ci = some (ci, [], []) := by
  rw [partPre, hv]
  simp only [if_neg hge]

/-- Claim C5 support: `partition(f, f.cuts)` returns `f` itself. -/
theorem partition_self (f : Pw) (hlen : f.cuts.length = f.segs.length + 1)
    (hch : f.cuts.Chain' (· < ·)) (hne : f.segs ≠ []) :
    partition f f.cuts = some f := by
  have hcne : f.cuts ≠ [] := by
    intro hnil
    rw [hnil] at hlen
    simp at hlen
  have hget : f.cuts.get? 0 = some (f.cuts.getD 0 0) := by
    cases hc : f.cuts with
    | nil => exact absurd hc hcne
    | cons a l => rfl
  rw [partition_eq f f.cuts hcne hne 0 [] []
    (partPre_exit f f.cuts f.cuts.length 0 (f.cuts.getD 0 0) hget (lt_irrefl _))]
  rw [partLoop_self f hlen hch f.size (f.size + f.cuts.length + 2) 0 (by omega)
    (by simp only [Pw.size]; omega)]
  have hc1 : f.cuts.getD 0 0 :: f.cuts.drop (0 + 1) = f.cuts := by
    cases hc : f.cuts with
    | nil => exact absurd hc hcne
    | cons a l => rfl
  simp only [List.nil_append, List.drop_zero, hc1]

/-! ## Calculus: exact segment-level facts and the piecewise loops -/

theorem Poly.derivAux_integralAux (p : Poly) :
    ∀ k : ℕ, 0 < k → Poly.derivAux k (Poly.integralAux k p) = p := by
  induction p with
  | nil => intro k hk; rfl
  | cons a p ih =>
    intro k hk
    simp only [Poly.integralAux, Poly.derivAux, ih (k + 1) (by omega)]
    rw [div_mul_cancel₀ a (Nat.cast_ne_zero.mpr (by omega) : (k : ℚ) ≠ 0)]

theorem Poly.deriv_integral (p : Poly) : Poly.deriv (Poly.integral p) = p := by
  rw [Poly.integral, Poly.deriv]
  exact Poly.derivAux_integralAux p 1 (by omega)

theorem Poly.integralAux_derivAux (p : Poly) :
    ∀ k : ℕ, 0 < k → Poly.integralAux k (Poly.derivAux k p) = p := by
  induction p with
  | nil => intro k hk; rfl
  | cons a p ih =>
    intro k hk
    simp only [Poly.derivAux, Poly.integralAux, ih (k + 1) (by omega)]
    rw [mul_div_cancel_right₀ a (by exact_mod_cast Nat.cast_ne_zero.mpr (by omega))]

theorem Poly.integral_deriv (p : Poly) :
    Poly.integral (Poly.deriv p) = 0 :: p.tail := by
  cases p with
  | nil => rfl
  | cons a q =>
    rw [Poly.deriv, Poly.integral, List.tail_cons]
    rw [Poly.integralAux_derivAux q 1 (by omega)]

theorem Poly.deriv_offset (p : Poly) (k : ℚ) :
    Poly.deriv (Poly.offset p k) = Poly.deriv p := by
  cases p with
  | nil => rfl
  | cons c q => rfl

theorem Poly.derivAux_map_mul (p : Poly) (w : ℚ) :
    ∀ k, Poly.derivAux k (p.map (fun c => c * w)) = (Poly.derivAux k p).map (fun c => c * w) := by
  induction p with
  | nil => intro k; rfl
  | cons a q ih =>
    intro k
    simp only [List.map_cons, Poly.derivAux, ih (k + 1)]
    rw [mul_right_comm]

theorem Poly.deriv_smul (p : Poly) (w : ℚ) :
    Poly.deriv (Poly.smul p w) = Poly.smul (Poly.deriv p) w := by
  cases p with
  | nil => rfl
  | cons a q =>
    rw [Poly.smul, List.map_cons, Poly.deriv, Poly.deriv, Poly.smul]
    exact Poly.derivAux_map_mul q w 1

theorem Poly.divScalar_smul (p : Poly) (w : ℚ) (hw : w ≠ 0) :
    Poly.divScalar (Poly.smul p w) w = p := by
  rw [Poly.smul, Poly.divScalar, List.map_map]
  have hid : ((fun c => c / w) ∘ fun c => c * w) = (id : ℚ → ℚ) := by
    funext c
    simp only [Function.comp_apply, id]
    exact mul_div_cancel_right₀ c hw
  rw [hid, List.map_id]

theorem Poly.smul_divScalar (p : Poly) (w : ℚ) (hw : w ≠ 0) :
    Poly.smul (Poly.divScalar p w) w = p := by
  rw [Poly.smul, Poly.divScalar, List.map_map]
  have hid : ((fun c => c * w) ∘ fun c => c / w) = (id : ℚ → ℚ) := by
    funext c
    simp only [Function.comp_apply, id]
    exact div_mul_cancel₀ c hw
  rw [hid, List.map_id]

theorem Poly.integralAux_map_div (p : Poly) (w : ℚ) :
    ∀ k, Poly.integralAux k (p.map (fun c => c / w)) =
      (Poly.integralAux k p).map (fun c => c / w) := by
  induction p with
  | nil => intro k; rfl
  | cons a q ih =>
    intro k
    simp only [List.map_cons, Poly.integralAux, ih (k + 1)]
    rw [div_right_comm]

theorem Poly.integral_divScalar (p : Poly) (w : ℚ) :
    Poly.integral (Poly.divScalar p w) = Poly.divScalar (Poly.integral p) w := by
  rw [Poly.integral, Poly.divScalar, Poly.divScalar, Poly.integral, List.map_cons,
    zero_div]
  rw [Poly.integralAux_map_div p w 1]

theorem Poly.at0_offset (p : Poly) (k : ℚ) :
    Poly.at0 (Poly.offset p k) = Poly.at0 p + k := by
  rw [Poly.at0, Poly.at0, Poly.eval_offset]

theorem Poly.at0_integral_smul (p : Poly) (w : ℚ) :
    Poly.at0 (Poly.smul (Poly.integral p) w) = 0 := by
  rw [Poly.at0, Poly.eval_smul, Poly.integral, Poly.eval_cons]
  ring

/-- Seeding: the first segment produced by the `integral` loop starts at the
running constant it was given. -/
theorem integralSegs_head (ps : List Poly) (cs : List ℚ) (k : ℚ)
    (hne : ps ≠ []) (hlen : ps.length < cs.length) :
    Poly.at0 ((integralSegs ps cs k).getD 0 []) = k := by
  cases ps with
  | nil => exact absurd rfl hne
  | cons p ps' =>
    cases cs with
    | nil => simp at hlen
    | cons c0 cs' =>
      cases cs' with
      | nil => simp at hlen
      | cons c1 cr =>
        simp only [integralSegs, List.getD_cons_zero]
        rw [Poly.at0_offset]
        ring

/-- Lengths: the `integral` loop produces one output segment per input
segment (given one more cut than segments). -/
theorem integralSegs_length (ps : List Poly) :
    ∀ cs : List ℚ, ∀ k, ps.length < cs.length →
      (integralSegs ps cs k).length = ps.length := by
  induction ps with
  | nil => intro cs k h; rfl
  | cons p ps' ih =>
    intro cs k hlen
    cases cs with
    | nil => simp at hlen
    | cons c0 cs' =>
      cases cs' with
      | nil => simp at hlen
      | cons c1 cr =>
        simp only [integralSegs, List.length_cons]
        rw [ih (c1 :: cr) _ (by simp at hlen ⊢; omega)]

/-- Continuity of the `integral` loop across every interior cut. -/
theorem integralSegs_chain (ps : List Poly) :
    ∀ cs : List ℚ, ∀ k, ps.length < cs.length →
      ∀ i, i + 1 < ps.length →
        Poly.at1 ((integralSegs ps cs k).getD i []) =
        Poly.at0 ((integralSegs ps cs k).getD (i + 1) []) := by
  induction ps with
  | nil => intro cs k hlen i hi; simp at hi
  | cons p ps' ih =>
    intro cs k hlen i hi
    cases cs with
    | nil => simp at hlen
    | cons c0 cs' =>
      cases cs' with
      | nil => simp at hlen
      | cons c1 cr =>
        simp only [integralSegs]
        cases i with
        | zero =>
          simp only [List.getD_cons_zero, List.getD_cons_succ]
          have hne' : ps' ≠ [] := by
            intro h; rw [h] at hi; simp at hi
          rw [integralSegs_head ps' (c1 :: cr) _ hne' (by simp at hlen ⊢; omega)]
        | succ j =>
          simp only [List.getD_cons_succ]
          exact ih (c1 :: cr) _ (by simp at hlen ⊢; omega) j (by simp at hi; omega)

/-- Derivative of the integral, segmentwise: exact round trip. -/
theorem derivSegs_integralSegs (ps : List Poly) :
    ∀ cs : List ℚ, ∀ k, cs.Chain' (· < ·) → ps.length < cs.length →
      derivSegs (integralSegs ps cs k) cs = ps := by
  induction ps with
  | nil => intro cs k hch hlen; rfl
  | cons p ps' ih =>
    intro cs k hch hlen
    cases cs with
    | nil => simp at hlen
    | cons c0 cs' =>
      cases cs' with
      | nil => simp at hlen
      | cons c1 cr =>
        have hw : c1 - c0 ≠ 0 := by
          have : c0 < c1 := (List.chain'_cons.mp hch).1
          intro h; rw [sub_eq_zero] at h; rw [h] at this; exact lt_irrefl c0 this
        simp only [integralSegs, derivSegs]
        rw [Poly.deriv_offset, Poly.deriv_smul, Poly.deriv_integral,
          Poly.divScalar_smul p (c1 - c0) hw]
        rw [ih (c1 :: cr) _ (List.chain'_cons.mp hch).2 (by simp at hlen ⊢; omega)]

/-- Integral of the derivative, segmentwise: each output segment is the
input segment shifted by a constant. -/
theorem integralSegs_derivSegs (ps : List Poly) :
    ∀ cs : List ℚ, ∀ k, cs.Chain' (· < ·) → ps.length < cs.length →
      ∀ i, i < ps.length → ∃ c,
        (integralSegs (derivSegs ps cs) cs k).getD i [] =
          Poly.offset (ps.getD i []) c := by
  induction ps with
  | nil => intro cs k hch hlen i hi; simp at hi
  | cons p ps' ih =>
    intro cs k hch hlen i hi
    cases cs with
    | nil => simp at hlen
    | cons c0 cs' =>
      cases cs' with
      | nil => simp at hlen
      | cons c1 cr =>
        have hw : c1 - c0 ≠ 0 := by
          have : c0 < c1 := (List.chain'_cons.mp hch).1
          intro h; rw [sub_eq_zero] at h; rw [h] at this; exact lt_irrefl c0 this
        simp only [derivSegs, integralSegs]
        rw [Poly.integral_divScalar, Poly.smul_divScalar _ (c1 - c0) hw,
          Poly.integral_deriv]
        cases i with
        | zero =>
          refine ⟨k - Poly.at0 p, ?_⟩
          simp only [List.getD_cons_zero]
          cases p with
          | nil =>
            simp only [List.tail_nil, Poly.offset, Poly.at0, Poly.eval_cons,
              Poly.eval_nil, List.cons.injEq, and_true]
            ring
          | cons a q =>
            simp only [Poly.offset, List.tail_cons, Poly.at0, Poly.eval_cons,
              List.cons.injEq, and_true]
            ring
        | succ j =>
          simp only [List.getD_cons_succ]
          exact ih (c1 :: cr) _ (List.chain'_cons.mp hch).2
            (by simp at hlen ⊢; omega) j (by simp at hi; omega)

/-! ## The cut sequence produced by `partition`: sorted merge without
cross-list duplicates -/

/-- Reference merge of two strictly sorted lists, keeping one copy of a
value present in both. -/
def mergeStrict : List ℚ → List ℚ → List ℚ
  | [], ys => ys
  | xs, [] => xs
  | x :: xs, y :: ys =>
    if x < y then x :: mergeStrict xs (y :: ys)
    else if y < x then y :: mergeStrict (x :: xs) ys
    else x :: mergeStrict xs ys
termination_by xs ys => xs.length + ys.length

theorem mergeStrict_nil_left (ys : List ℚ) : mergeStrict [] ys = ys := by
  simp [mergeStrict]

theorem mergeStrict_nil_right (xs : List ℚ) : mergeStrict xs [] = xs := by
  cases xs with
  | nil => simp [mergeStrict]
  | cons x xs => simp [mergeStrict]

theorem mergeStrict_cons_cons (x y : ℚ) (xs ys : List ℚ) :
    mergeStrict (x :: xs) (y :: ys) =
      if x < y then x :: mergeStrict xs (y :: ys)
      else if y < x then y :: mergeStrict (x :: xs) ys
      else x :: mergeStrict xs ys := by
  simp [mergeStrict]

theorem mergeStrict_comm (xs : List ℚ) : ∀ ys, mergeStrict xs ys = mergeStrict ys xs := by
  induction xs with
  | nil => intro ys; rw [mergeStrict_nil_right, mergeStrict_nil_left]
  | cons x xs ih =>
    intro ys
    induction ys with
    | nil => rw [mergeStrict_nil_right, mergeStrict_nil_left]
    | cons y ys ihy =>
      rw [mergeStrict_cons_cons, mergeStrict_cons_cons]
      rcases lt_trichotomy x y with h | h | h
      · simp only [if_pos h, if_neg (not_lt_of_lt h)]
        rw [ih (y :: ys)]
      · subst h
        simp only [if_neg (lt_irrefl x)]
        rw [ih ys]
      · simp only [if_pos h, if_neg (not_lt_of_lt h)]
        rw [ihy]

theorem mergeStrict_mem (v : ℚ) : ∀ xs ys, v ∈ mergeStrict xs ys ↔ v ∈ xs ∨ v ∈ ys := by
  intro xs
  induction xs with
  | nil => intro ys; simp [mergeStrict]
  | cons x xs ih =>
    intro ys
    induction ys with
    | nil => rw [mergeStrict_nil_right]; simp
    | cons y ys ihy =>
      rw [mergeStrict_cons_cons]
      rcases lt_trichotomy x y with h | h | h
      · rw [if_pos h]
        simp only [List.mem_cons, ih (y :: ys), List.mem_cons]
        tauto
      · rw [if_neg (by rw [h]; exact lt_irrefl y), if_neg (by rw [h]; exact lt_irrefl y)]
        simp only [List.mem_cons, ih ys]
        subst h
        tauto
      · rw [if_neg (not_lt_of_lt h), if_pos h]
        simp only [List.mem_cons, ihy]
        tauto

theorem mergeStrict_pairwise : ∀ xs ys, xs.Pairwise (· < ·) → ys.Pairwise (· < ·) →
    (mergeStrict xs ys).Pairwise (· < ·) := by
  intro xs
  induction xs with
  | nil => intro ys _ hys; rw [mergeStrict_nil_left]; exact hys
  | cons x xs ih =>
    intro ys
    induction ys with
    | nil => intro hxs _; rw [mergeStrict_nil_right]; exact hxs
    | cons y ys ihy =>
      intro hxs hys
      rw [mergeStrict_cons_cons]
      rcases lt_trichotomy x y with h | h | h
      · simp only [if_pos h, if_neg (not_lt_of_lt h)]
        refine List.Pairwise.cons ?_ (ih (y :: ys) (List.Pairwise.of_cons hxs) hys)
        intro v hv
        rw [mergeStrict_mem] at hv
        rcases hv with hv | hv
        · exact List.rel_of_pairwise_cons hxs hv
        · rcases List.mem_cons.mp hv with rfl | hv
          · exact h
          · exact lt_trans h (List.rel_of_pairwise_cons hys hv)
      · subst h
        simp only [if_neg (lt_irrefl x)]
        refine List.Pairwise.cons ?_ (ih ys (List.Pairwise.of_cons hxs) (List.Pairwise.of_cons hys))
        intro v hv
        rw [mergeStrict_mem] at hv
        rcases hv with hv | hv
        · exact List.rel_of_pairwise_cons hxs hv
        · exact List.rel_of_pairwise_cons hys hv
      · simp only [if_pos h, if_neg (not_lt_of_lt h)]
        refine List.Pairwise.cons ?_ (ihy hxs (List.Pairwise.of_cons hys))
        intro v hv
        rw [mergeStrict_mem] at hv
        rcases hv with hv | hv
        · rcases List.mem_cons.mp hv with rfl | hv
          · exact h
          · exact lt_trans h (List.rel_of_pairwise_cons hxs hv)
        · exact List.rel_of_pairwise_cons hys hv

/-! ## Helper list facts -/

theorem drop_getD_cons {α : Type} (l : List α) (d : α) (i : ℕ) (h : i < l.length) :
    l.drop i = l.getD i d :: l.drop (i + 1) := by
  rw [List.getD_eq_getElem l d h]
  exact List.drop_eq_getElem_cons h

theorem getD_drop {α : Type} (l : List α) (d : α) (m i : ℕ) :
    (l.drop m).getD i d = l.getD (m + i) d := by
  simp [List.getD_eq_getElem?_getD, List.getElem?_drop]

theorem getD_mem {α : Type} (l : List α) (d : α) (i : ℕ) (h : i < l.length) :
    l.getD i d ∈ l := by
  rw [List.getD_eq_getElem l d h]
  exact List.getElem_mem h

theorem pairwise_drop_head_lt (c : List ℚ) (hp : c.Pairwise (· < ·)) (ci : ℕ)
    (h : ci < c.length) : ∀ v ∈ c.drop (ci + 1), c.getD ci 0 < v := by
  have hp' : (c.drop ci).Pairwise (· < ·) := hp.sublist (List.drop_sublist ci c)
  rw [drop_getD_cons c 0 ci h] at hp'
  exact fun v hv => List.rel_of_pairwise_cons hp' hv

theorem pairwise_drop_head_le (c : List ℚ) (hp : c.Pairwise (· < ·)) (ci : ℕ)
    (h : ci < c.length) : ∀ v ∈ c.drop ci, c.getD ci 0 ≤ v := by
  rw [drop_getD_cons c 0 ci h]
  intro v hv
  rcases List.mem_cons.mp hv with rfl | hv
  · exact le_refl _
  · exact le_of_lt (pairwise_drop_head_lt c hp ci h v hv)

theorem filter_lt_all (x : ℚ) (l : List ℚ) (h : ∀ v ∈ l, x < v) :
    l.filter (fun v => decide (x < v)) = l :=
  List.filter_eq_self.mpr (fun v hv => decide_eq_true (h v hv))

theorem sorted_le_getD_last (l : List ℚ) (hp : l.Pairwise (· < ·)) (v : ℚ)
    (hv : v ∈ l) (n : ℕ) (hn : l.length = n + 1) : v ≤ l.getD n 0 := by
  obtain ⟨i, hi, rfl⟩ := List.getElem_of_mem hv
  rw [List.getD_eq_getElem l 0 (by omega)]
  rcases Nat.lt_or_ge i n with h | h
  · exact le_of_lt ((List.pairwise_iff_getElem.mp hp) i n hi (by omega) h)
  · have : i = n := by omega
    subst this
    exact le_refl _

theorem sorted_getD_head_le (l : List ℚ) (hp : l.Pairwise (· < ·)) (v : ℚ)
    (hv : v ∈ l) : l.getD 0 0 ≤ v := by
  obtain ⟨i, hi, rfl⟩ := List.getElem_of_mem hv
  rw [List.getD_eq_getElem l 0 (by omega)]
  rcases Nat.eq_zero_or_pos i with rfl | h
  · exact le_refl _
  · exact le_of_lt ((List.pairwise_iff_getElem.mp hp) 0 i (by omega) hi h)

/-! ## Pieces produced by partition cover input segments -/

/-- A produced segment `sg` spanning the global interval `[lo, hi]` is the
(extensional) affine restriction of input segment `k` of `pw`, and either
its interval sits inside segment `k`'s cut interval, or it is an
extrapolation piece below the domain (then `k = 0`) or above it (then `k`
is the last segment). -/
def Covers (pw : Pw) (lo hi : ℚ) (sg : Poly) : Prop :=
  ∃ k, k < pw.segs.length ∧
    (∀ s : ℚ, Poly.eval sg s =
      Poly.eval (pw.segs.getD k [])
        (((1 - s) * lo + s * hi - pw.cuts.getD k 0) /
          (pw.cuts.getD (k + 1) 0 - pw.cuts.getD k 0))) ∧
    ((pw.cuts.getD k 0 ≤ lo ∧ hi ≤ pw.cuts.getD (k + 1) 0) ∨
     (k = 0 ∧ hi ≤ pw.cuts.getD 0 0) ∨
     (k = pw.segs.length - 1 ∧ pw.cuts.getD pw.segs.length 0 ≤ lo))

theorem eval_elem_portion (pw : Pw) (i : ℕ) (lo hi s : ℚ) :
    Poly.eval (elem_portion pw i lo hi) s =
      Poly.eval (pw.segs.getD i [])
        (((1 - s) * lo + s * hi - pw.cuts.getD i 0) /
          (pw.cuts.getD (i + 1) 0 - pw.cuts.getD i 0)) := by
  simp only [elem_portion]
  rw [Poly.eval_portion]
  congr 1
  ring

/-- A plainly copied segment covers its own cut interval. -/
theorem covers_plain (pw : Pw) (hlen : pw.cuts.length = pw.segs.length + 1)
    (hch : pw.cuts.Pairwise (· < ·)) (i : ℕ) (hi : i < pw.segs.length) :
    Covers pw (pw.cuts.getD i 0) (pw.cuts.getD (i + 1) 0) (pw.segs.getD i []) := by
  refine ⟨i, hi, ?_, Or.inl ⟨le_refl _, le_refl _⟩⟩
  intro s
  congr 1
  have hΔ : pw.cuts.getD (i + 1) 0 - pw.cuts.getD i 0 ≠ 0 := by
    have := (List.pairwise_iff_getElem.mp hch) i (i + 1)
      (by omega) (by omega) (by omega)
    rw [← List.getD_eq_getElem pw.cuts 0 (by omega : i < pw.cuts.length),
      ← List.getD_eq_getElem pw.cuts 0 (by omega : i + 1 < pw.cuts.length)] at this
    intro h
    rw [sub_eq_zero] at h
    rw [h] at this
    exact lt_irrefl _ this
  rw [eq_div_iff hΔ]
  ring

theorem affine_tail_id (c0 c1 prev s : ℚ) (h : c1 - c0 ≠ 0) :
    (1 - s) * ((prev - c0) / (c1 - c0)) + s * 1 =
      ((1 - s) * prev + s * c1 - c0) / (c1 - c0) := by
  field_simp
  ring

/-- The tail restriction pushed by the finalize branch covers
`[prev, cuts[si+1]]`. -/
theorem covers_portion_tail (pw : Pw) (hlen : pw.cuts.length = pw.segs.length + 1)
    (hch : pw.cuts.Pairwise (· < ·)) (si : ℕ) (hsi : si < pw.segs.length)
    (prev : ℚ) (h1 : pw.cuts.getD si 0 ≤ prev) :
    Covers pw prev (pw.cuts.getD (si + 1) 0)
      (Poly.portion (pw.segs.getD si []) (pw.segT prev si) 1) := by
  refine ⟨si, hsi, ?_, Or.inl ⟨h1, le_refl _⟩⟩
  intro s
  rw [Poly.eval_portion]
  congr 1
  rw [Pw.segT]
  have hΔ : pw.cuts.getD (si + 1) 0 - pw.cuts.getD si 0 ≠ 0 := by
    have := (List.pairwise_iff_getElem.mp hch) si (si + 1)
      (by omega) (by omega) (by omega)
    rw [← List.getD_eq_getElem pw.cuts 0 (by omega : si < pw.cuts.length),
      ← List.getD_eq_getElem pw.cuts 0 (by omega : si + 1 < pw.cuts.length)] at this
    intro h
    rw [sub_eq_zero] at h
    rw [h] at this
    exact lt_irrefl _ this
  exact affine_tail_id (pw.cuts.getD si 0) (pw.cuts.getD (si + 1) 0) prev s hΔ

/-! ## The closing loop of partition -/

theorem partPost_push (pw : Pw) (c : List ℚ) (m ci : ℕ) (prev : ℚ)
    (hci : ci < c.length) (hpc : prev < c.getD ci 0) :
    partPost (m + 1) pw c ci prev =
      (c.getD ci 0 :: (partPost m pw c (ci + 1) (c.getD ci 0)).1,
       elem_portion pw (pw.size - 1) prev (c.getD ci 0) ::
         (partPost m pw c (ci + 1) (c.getD ci 0)).2) := by
  rw [partPost, if_pos hci, if_pos hpc]

theorem partPost_skip (pw : Pw) (c : List ℚ) (m ci : ℕ) (prev : ℚ)
    (hci : ci < c.length) (hpc : ¬prev < c.getD ci 0) :
    partPost (m + 1) pw c ci prev = partPost m pw c (ci + 1) prev := by
  rw [partPost, if_pos hci, if_neg hpc]

/-- Full characterization of the closing loop: its cut output is the list of
remaining input cuts above `prev`, its segments pair one-to-one with those
cuts, and every pushed segment is an extrapolated restriction of the last
input segment. -/
theorem partPost_spec (pw : Pw) (c : List ℚ) (hp : c.Pairwise (· < ·))
    (hlen : pw.cuts.length = pw.segs.length + 1) (hne : pw.segs ≠ []) :
    ∀ fuel ci prev, c.length - ci < fuel →
      pw.cuts.getD pw.segs.length 0 ≤ prev →
      (∀ v ∈ c.drop ci, prev ≤ v) →
      (partPost fuel pw c ci prev).1 =
        (c.drop ci).filter (fun v => decide (prev < v)) ∧
      (partPost fuel pw c ci prev).2.length = (partPost fuel pw c ci prev).1.length ∧
      (∀ j, j < (partPost fuel pw c ci prev).1.length →
        Covers pw ((prev :: (partPost fuel pw c ci prev).1).getD j 0)
          ((partPost fuel pw c ci prev).1.getD j 0)
          ((partPost fuel pw c ci prev).2.getD j [])) := by
  intro fuel
  induction fuel with
  | zero => intro ci prev hfuel _ _; omega
  | succ m ih =>
    intro ci prev hfuel hback hge
    by_cases hci : ci < c.length
    · have hdrop : c.drop ci = c.getD ci 0 :: c.drop (ci + 1) := drop_getD_cons c 0 ci hci
      have htail : ∀ v ∈ c.drop (ci + 1), c.getD ci 0 < v :=
        pairwise_drop_head_lt c hp ci hci
      by_cases hpc : prev < c.getD ci 0
      · rw [partPost_push pw c m ci prev hci hpc]
        dsimp only
        obtain ⟨ih1, ih2, ih3⟩ := ih (ci + 1) (c.getD ci 0) (by omega)
          (le_trans hback (le_of_lt hpc))
          (fun v hv => le_of_lt (htail v hv))
        have hfeq : (c.drop (ci + 1)).filter (fun v => decide (prev < v)) =
            (c.drop (ci + 1)).filter (fun v => decide (c.getD ci 0 < v)) := by
          rw [filter_lt_all _ _ (fun v hv => lt_trans hpc (htail v hv)),
            filter_lt_all _ _ htail]
        refine ⟨?_, ?_, ?_⟩
        · rw [hdrop,
            @List.filter_cons_of_pos ℚ (fun v => decide (prev < v)) (c.getD ci 0)
              (c.drop (ci + 1)) (decide_eq_true hpc), hfeq, ih1]
        · simp only [List.length_cons, ih2]
        · intro j hj
          cases j with
          | zero =>
            have hlz0 : 0 < pw.segs.length := List.length_pos.mpr hne
            refine ⟨pw.segs.length - 1, by omega, ?_, Or.inr (Or.inr ⟨rfl, hback⟩)⟩
            intro s
            have hidx : pw.segs.length - 1 + 1 = pw.segs.length := by
              have hlz : pw.segs.length ≠ 0 := fun h => hne (List.eq_nil_of_length_eq_zero h)
              omega
            simp only [List.getD_cons_zero, Pw.size]
            rw [eval_elem_portion pw (pw.segs.length - 1) prev (c.getD ci 0) s, hidx]
          | succ j' =>
            simp only [List.length_cons] at hj
            simp only [List.getD_cons_succ]
            exact ih3 j' (by omega)
      · rw [partPost_skip pw c m ci prev hci hpc]
        obtain ⟨ih1, ih2, ih3⟩ := ih (ci + 1) prev (by omega) hback
          (fun v hv => hge v (by rw [hdrop]; exact List.mem_cons_of_mem _ hv))
        refine ⟨?_, ih2, ih3⟩
        rw [ih1, hdrop,
          @List.filter_cons_of_neg ℚ (fun v => decide (prev < v)) (c.getD ci 0)
            (c.drop (ci + 1)) (by simpa using hpc)]
    · rw [partPost_done pw c (m + 1) ci prev (by omega)]
      rw [List.drop_eq_nil_of_le (by omega : c.length ≤ ci)]
      exact ⟨rfl, rfl, fun j hj => by simp at hj⟩

/-! ## The main loop of partition -/

theorem partLoop_copy (pw : Pw) (c : List ℚ) (m si ci : ℕ) (prev : ℚ)
    (hw : si < pw.size ∧ ci ≤ c.length)
    (h1 : ci = c.length ∧ prev ≤ pw.cuts.getD si 0) :
    partLoop (m + 1) pw c si ci prev = (pw.cuts.drop (si + 1), pw.segs.drop si) := by
  rw [partLoop, if_pos hw, if_pos h1]

theorem partLoop_fin (pw : Pw) (c : List ℚ) (m si ci : ℕ) (prev : ℚ)
    (hw : si < pw.size ∧ ci ≤ c.length)
    (h1 : ¬(ci = c.length ∧ prev ≤ pw.cuts.getD si 0))
    (h2 : ci = c.length ∨ pw.cuts.getD (si + 1) 0 ≤ c.getD ci 0) :
    partLoop (m + 1) pw c si ci prev =
      (pw.cuts.getD (si + 1) 0 ::
        (partLoop m pw c (si + 1) ci (pw.cuts.getD (si + 1) 0)).1,
       (if pw.cuts.getD si 0 < prev
        then Poly.portion (pw.segs.getD si []) (pw.segT prev si) 1
        else pw.segs.getD si []) ::
        (partLoop m pw c (si + 1) ci (pw.cuts.getD (si + 1) 0)).2) := by
  rw [partLoop, if_pos hw, if_neg h1, if_pos h2]

theorem partLoop_coin (pw : Pw) (c : List ℚ) (m si ci : ℕ) (prev : ℚ)
    (hw : si < pw.size ∧ ci ≤ c.length)
    (h1 : ¬(ci = c.length ∧ prev ≤ pw.cuts.getD si 0))
    (h2 : ¬(ci = c.length ∨ pw.cuts.getD (si + 1) 0 ≤ c.getD ci 0))
    (h3 : c.getD ci 0 = pw.cuts.getD si 0) :
    partLoop (m + 1) pw c si ci prev = partLoop m pw c si (ci + 1) prev := by
  rw [partLoop, if_pos hw, if_neg h1, if_neg h2, if_pos h3]

theorem partLoop_sub (pw : Pw) (c : List ℚ) (m si ci : ℕ) (prev : ℚ)
    (hw : si < pw.size ∧ ci ≤ c.length)
    (h1 : ¬(ci = c.length ∧ prev ≤ pw.cuts.getD si 0))
    (h2 : ¬(ci = c.length ∨ pw.cuts.getD (si + 1) 0 ≤ c.getD ci 0))
    (h3 : ¬c.getD ci 0 = pw.cuts.getD si 0) :
    partLoop (m + 1) pw c si ci prev =
      (c.getD ci 0 :: (partLoop m pw c si (ci + 1) (c.getD ci 0)).1,
       elem_portion pw si prev (c.getD ci 0) ::
         (partLoop m pw c si (ci + 1) (c.getD ci 0)).2) := by
  rw [partLoop, if_pos hw, if_neg h1, if_neg h2, if_neg h3]

theorem partLoop_exit (pw : Pw) (c : List ℚ) (m si ci : ℕ) (prev : ℚ)
    (hw : ¬(si < pw.size ∧ ci ≤ c.length)) :
    partLoop (m + 1) pw c si ci prev = partPost m pw c ci prev := by
  rw [partLoop, if_neg hw]

/-- Full characterization of the main partition loop: under the loop
invariant, its cut output is the sorted duplicate-free merge of the
remaining input cuts above `prev` with the remaining container cuts, its
segments pair one-to-one with those cuts, and every produced segment covers
its cut interval as a restriction of one input segment. -/
theorem partLoop_spec (pw : Pw) (c : List ℚ) (hp : c.Pairwise (· < ·))
    (hlen : pw.cuts.length = pw.segs.length + 1) (hch : pw.cuts.Pairwise (· < ·))
    (hne : pw.segs ≠ []) :
    ∀ fuel si ci prev,
      (pw.segs.length - si) + (c.length + 1 - ci) < fuel →
      si ≤ pw.segs.length → ci ≤ c.length →
      (si < pw.segs.length →
        pw.cuts.getD si 0 ≤ prev ∧ prev < pw.cuts.getD (si + 1) 0) →
      (si = pw.segs.length → prev = pw.cuts.getD pw.segs.length 0) →
      (∀ v ∈ c.drop ci, prev < v ∨ v = pw.cuts.getD si 0) →
      (partLoop fuel pw c si ci prev).1 =
        mergeStrict (pw.cuts.drop (si + 1))
          ((c.drop ci).filter (fun v => decide (prev < v))) ∧
      (partLoop fuel pw c si ci prev).2.length =
        (partLoop fuel pw c si ci prev).1.length ∧
      (∀ j, j < (partLoop fuel pw c si ci prev).1.length →
        Covers pw ((prev :: (partLoop fuel pw c si ci prev).1).getD j 0)
          ((partLoop fuel pw c si ci prev).1.getD j 0)
          ((partLoop fuel pw c si ci prev).2.getD j [])) := by
  have hcc : pw.cuts.Chain' (· < ·) := List.chain'_iff_pairwise.mpr hch
  have hlt_cuts : ∀ i, i < pw.segs.length →
      pw.cuts.getD i 0 < pw.cuts.getD (i + 1) 0 :=
    fun i hi => chain_getD_lt pw.cuts hcc (Nat.lt_succ_self i) (by omega)
  intro fuel
  induction fuel with
  | zero => intro si ci prev hfuel _ _ _ _ _; omega
  | succ m ih =>
    intro si ci prev hfuel hsin hcin hB hB' hC
    by_cases hsi : si < pw.segs.length
    · by_cases h1 : ci = c.length ∧ prev ≤ pw.cuts.getD si 0
      · -- straight copy of the rest
        rw [partLoop_copy pw c m si ci prev ⟨hsi, hcin⟩ h1]
        have hpe : prev = pw.cuts.getD si 0 := le_antisymm h1.2 (hB hsi).1
        refine ⟨?_, ?_, ?_⟩
        · rw [h1.1, List.drop_length, List.filter_nil, mergeStrict_nil_right]
        · rw [List.length_drop, List.length_drop]
          omega
        · intro j hj
          rw [List.length_drop] at hj
          have hj' : si + j < pw.segs.length := by omega
          have e1 : (prev :: pw.cuts.drop (si + 1)).getD j 0 =
              pw.cuts.getD (si + j) 0 := by
            cases j with
            | zero => rw [List.getD_cons_zero, hpe, Nat.add_zero]
            | succ j0 =>
              rw [List.getD_cons_succ, getD_drop]
              congr 1
              omega
          have e2 : (pw.cuts.drop (si + 1)).getD j 0 =
              pw.cuts.getD (si + j + 1) 0 := by
            rw [getD_drop]
            congr 1
            omega
          have e3 : (pw.segs.drop si).getD j [] = pw.segs.getD (si + j) [] := by
            rw [getD_drop]
          rw [e1, e2, e3]
          exact covers_plain pw hlen hch (si + j) hj'
      · by_cases h2 : ci = c.length ∨ pw.cuts.getD (si + 1) 0 ≤ c.getD ci 0
        · -- finalize the current segment
          rw [partLoop_fin pw c m si ci prev ⟨hsi, hcin⟩ h1 h2]
          dsimp only
          have hC' : ∀ v ∈ c.drop ci, pw.cuts.getD (si + 1) 0 < v ∨
              v = pw.cuts.getD (si + 1) 0 := by
            intro v hv
            rcases h2 with h2 | h2
            · rw [h2, List.drop_length] at hv
              simp at hv
            · have hcilen : ci < c.length := by
                by_contra hcl
                rw [List.drop_eq_nil_of_le (by omega)] at hv
                simp at hv
              have hle : c.getD ci 0 ≤ v := pairwise_drop_head_le c hp ci hcilen v hv
              rcases lt_or_eq_of_le (le_trans h2 hle) with h | h
              · exact Or.inl h
              · exact Or.inr h.symm
          obtain ⟨ih1, ih2, ih3⟩ := ih (si + 1) ci (pw.cuts.getD (si + 1) 0)
            (by omega) (by omega) hcin
            (fun hlt => ⟨le_refl _, hlt_cuts (si + 1) hlt⟩)
            (fun heq => by rw [heq]) hC'
          have hdropc : pw.cuts.drop (si + 1) =
              pw.cuts.getD (si + 1) 0 :: pw.cuts.drop (si + 1 + 1) :=
            drop_getD_cons pw.cuts 0 (si + 1) (by omega)
          refine ⟨?_, ?_, ?_⟩
          · rcases Nat.eq_or_lt_of_le hcin with hcieq | hcilen
            · -- input cuts exhausted
              rw [ih1, hcieq, List.drop_length]
              simp only [List.filter_nil]
              rw [mergeStrict_nil_right, mergeStrict_nil_right, hdropc]
            · have hcd : pw.cuts.getD (si + 1) 0 ≤ c.getD ci 0 := by
                rcases h2 with h2 | h2
                · omega
                · exact h2
              have hdc : c.drop ci = c.getD ci 0 :: c.drop (ci + 1) :=
                drop_getD_cons c 0 ci hcilen
              have hheadgt : prev < c.getD ci 0 := by
                rcases hC (c.getD ci 0) (by rw [hdc]; exact List.mem_cons_self _ _)
                  with h | h
                · exact h
                · exact absurd (lt_of_lt_of_le (hlt_cuts si hsi) hcd)
                    (by rw [h]; exact not_lt_of_le (le_refl _))
              have hallgt : ∀ v ∈ c.drop ci, prev < v := by
                intro v hv
                rw [hdc] at hv
                rcases List.mem_cons.mp hv with rfl | hv
                · exact hheadgt
                · exact lt_trans hheadgt (pairwise_drop_head_lt c hp ci hcilen v hv)
              rw [filter_lt_all prev _ hallgt, ih1]
              rcases lt_or_eq_of_le hcd with hlt | heq
              · have htailgt : ∀ v ∈ c.drop ci, pw.cuts.getD (si + 1) 0 < v := by
                  intro v hv
                  rw [hdc] at hv
                  rcases List.mem_cons.mp hv with rfl | hv
                  · exact hlt
                  · exact lt_trans hlt (pairwise_drop_head_lt c hp ci hcilen v hv)
                rw [filter_lt_all _ _ htailgt]
                conv_rhs => rw [hdropc, hdc, mergeStrict_cons_cons, if_pos hlt]
                rw [hdc]
              · have hfe : (c.drop ci).filter
                    (fun v => decide (pw.cuts.getD (si + 1) 0 < v)) =
                      c.drop (ci + 1) := by
                  rw [hdc,
                    @List.filter_cons_of_neg ℚ
                      (fun v => decide (pw.cuts.getD (si + 1) 0 < v)) (c.getD ci 0)
                      (c.drop (ci + 1))
                      (by simp only [decide_eq_true_eq]; rw [heq]; exact lt_irrefl _),
                    filter_lt_all _ _ (by
                      intro v hv
                      rw [heq]
                      exact pairwise_drop_head_lt c hp ci hcilen v hv)]
                rw [hfe]
                conv_rhs => rw [hdropc, hdc, mergeStrict_cons_cons,
                  if_neg (by rw [heq]; exact lt_irrefl _),
                  if_neg (by rw [heq]; exact lt_irrefl _)]
          · simp only [List.length_cons, ih2]
          · intro j hj
            cases j with
            | zero =>
              simp only [List.getD_cons_zero]
              by_cases hpp : pw.cuts.getD si 0 < prev
              · rw [if_pos hpp]
                exact covers_portion_tail pw hlen hch si hsi prev (hB hsi).1
              · rw [if_neg hpp]
                have hpe : prev = pw.cuts.getD si 0 :=
                  le_antisymm (le_of_not_lt hpp) (hB hsi).1
                rw [hpe]
                exact covers_plain pw hlen hch si hsi
            | succ j0 =>
              simp only [List.length_cons] at hj
              simp only [List.getD_cons_succ]
              exact ih3 j0 (by omega)
        · push_neg at h2
          obtain ⟨hcine, hlt2⟩ := h2
          have hcilen : ci < c.length := by omega
          have hdc : c.drop ci = c.getD ci 0 :: c.drop (ci + 1) :=
            drop_getD_cons c 0 ci hcilen
          by_cases h3 : c.getD ci 0 = pw.cuts.getD si 0
          · -- coincident with the segment's start cut
            rw [partLoop_coin pw c m si ci prev ⟨hsi, hcin⟩ h1
              (by push_neg; exact ⟨hcine, hlt2⟩) h3]
            obtain ⟨ih1, ih2, ih3⟩ := ih si (ci + 1) prev (by omega) hsin (by omega)
              hB hB' (fun v hv => hC v (by
                rw [hdc]
                exact List.mem_cons_of_mem _ hv))
            refine ⟨?_, ih2, ih3⟩
            rw [ih1, hdc,
              @List.filter_cons_of_neg ℚ (fun v => decide (prev < v)) (c.getD ci 0)
                (c.drop (ci + 1))
                (by
                  simp only [decide_eq_true_eq]
                  rw [h3]
                  exact not_lt_of_le (hB hsi).1)]
          · -- plain subdivision inside the segment
            rw [partLoop_sub pw c m si ci prev ⟨hsi, hcin⟩ h1
              (by push_neg; exact ⟨hcine, hlt2⟩) h3]
            dsimp only
            have hheadgt : prev < c.getD ci 0 := by
              rcases hC (c.getD ci 0) (by rw [hdc]; exact List.mem_cons_self _ _)
                with h | h
              · exact h
              · exact absurd h h3
            obtain ⟨ih1, ih2, ih3⟩ := ih si (ci + 1) (c.getD ci 0) (by omega) hsin
              (by omega)
              (fun _ => ⟨le_trans (hB hsi).1 (le_of_lt hheadgt), hlt2⟩)
              (fun heq => absurd heq (by omega))
              (fun v hv => Or.inl (pairwise_drop_head_lt c hp ci hcilen v hv))
            refine ⟨?_, ?_, ?_⟩
            · have hallgt : ∀ v ∈ c.drop ci, prev < v := by
                intro v hv
                rw [hdc] at hv
                rcases List.mem_cons.mp hv with rfl | hv
                · exact hheadgt
                · exact lt_trans hheadgt (pairwise_drop_head_lt c hp ci hcilen v hv)
              rw [filter_lt_all prev _ hallgt]
              have hdropc : pw.cuts.drop (si + 1) =
                  pw.cuts.getD (si + 1) 0 :: pw.cuts.drop (si + 1 + 1) :=
                drop_getD_cons pw.cuts 0 (si + 1) (by omega)
              conv_rhs => rw [hdropc, hdc, mergeStrict_cons_cons,
                if_neg (not_lt_of_lt hlt2), if_pos hlt2]
              rw [ih1, filter_lt_all _ _
                (fun v hv => pairwise_drop_head_lt c hp ci hcilen v hv), ← hdropc]
            · simp only [List.length_cons, ih2]
            · intro j hj
              cases j with
              | zero =>
                simp only [List.getD_cons_zero]
                refine ⟨si, hsi, ?_, Or.inl ⟨(hB hsi).1, le_of_lt hlt2⟩⟩
                intro s
                exact eval_elem_portion pw si prev (c.getD ci 0) s
              | succ j0 =>
                simp only [List.length_cons] at hj
                simp only [List.getD_cons_succ]
                exact ih3 j0 (by omega)
    · -- segments exhausted: hand off to the closing loop
      have hsieq : si = pw.segs.length := by omega
      rw [partLoop_exit pw c m si ci prev
        (by rintro ⟨hcon, -⟩; exact hsi (by simpa [Pw.size] using hcon))]
      have hprev : prev = pw.cuts.getD pw.segs.length 0 := hB' hsieq
      obtain ⟨hp1, hp2, hp3⟩ := partPost_spec pw c hp hlen hne m ci prev
        (by omega) (le_of_eq hprev.symm)
        (fun v hv => by
          rcases hC v hv with h | h
          · exact le_of_lt h
          · rw [h, hsieq, ← hprev])
      refine ⟨?_, hp2, hp3⟩
      rw [hp1, List.drop_eq_nil_of_le (by omega : pw.cuts.length ≤ si + 1),
        mergeStrict_nil_left]

/-! ## The pre-domain loop of partition -/

/-- Full characterization of the pre-domain loop when some input cut reaches
the domain: it consumes exactly the prefix of values below the front cut,
pushing for each one an extrapolated restriction of the first segment. -/
theorem partPre_spec (pw : Pw) (c : List ℚ) (hp : c.Pairwise (· < ·))
    (hne : pw.segs ≠ []) :
    ∀ fuel ci, c.length - ci < fuel → ci ≤ c.length →
      (∃ m, ci ≤ m ∧ m < c.length ∧ pw.cuts.getD 0 0 ≤ c.getD m 0) →
      ∃ ci' S, partPre fuel pw c ci =
          some (ci', (c.drop ci).takeWhile (fun v => decide (v < pw.cuts.getD 0 0)), S) ∧
        ci ≤ ci' ∧ ci' ≤ c.length ∧
        c.drop ci' = (c.drop ci).dropWhile (fun v => decide (v < pw.cuts.getD 0 0)) ∧
        (∀ v ∈ c.drop ci', pw.cuts.getD 0 0 ≤ v) ∧
        S.length = ((c.drop ci).takeWhile (fun v => decide (v < pw.cuts.getD 0 0))).length ∧
        (∀ j, j < S.length →
          Covers pw
            (((c.drop ci).takeWhile (fun v => decide (v < pw.cuts.getD 0 0))).getD j 0)
            ((((c.drop ci).takeWhile (fun v => decide (v < pw.cuts.getD 0 0))) ++
              [pw.cuts.getD 0 0]).getD (j + 1) 0)
            (S.getD j [])) := by
  intro fuel
  induction fuel with
  | zero => intro ci hfuel _ _; omega
  | succ m ih =>
    intro ci hfuel hcin hex
    have hcilen : ci < c.length := by
      obtain ⟨mm, hm1, hm2, -⟩ := hex
      omega
    have hdc : c.drop ci = c.getD ci 0 :: c.drop (ci + 1) := drop_getD_cons c 0 ci hcilen
    have hget : c.get? ci = some (c.getD ci 0) := by
      rw [List.get?_eq_getElem?, List.getD_eq_getElem?_getD]
      rw [List.getElem?_eq_getElem hcilen]
      rfl
    by_cases hlt : c.getD ci 0 < pw.cuts.getD 0 0
    · -- consume this value
      have hex' : ∃ mm, ci + 1 ≤ mm ∧ mm < c.length ∧
          pw.cuts.getD 0 0 ≤ c.getD mm 0 := by
        obtain ⟨mm, hm1, hm2, hm3⟩ := hex
        refine ⟨mm, ?_, hm2, hm3⟩
        rcases Nat.eq_or_lt_of_le hm1 with rfl | h
        · exact absurd hm3 (not_le_of_lt hlt)
        · omega
      obtain ⟨ci', S', hrec, hci1, hci2, hdw, hge, hSlen, hScov⟩ :=
        ih (ci + 1) (by omega) (by omega) hex'
      rw [partPre, hget]
      simp only [if_pos hlt]
      rw [hrec]
      refine ⟨ci', elem_portion pw 0 (c.getD ci 0)
        (if ci = c.length - 1 ∨ pw.cuts.getD 0 0 ≤ c.getD (ci + 1) 0
         then pw.cuts.getD 0 0 else c.getD (ci + 1) 0) :: S', ?_, by omega, hci2, ?_, hge,
        ?_, ?_⟩
      · rw [hdc, @List.takeWhile_cons_of_pos ℚ (fun v => decide (v < pw.cuts.getD 0 0)) (c.getD ci 0) (c.drop (ci + 1)) (decide_eq_true hlt)]
      · rw [hdw, hdc, @List.dropWhile_cons_of_pos ℚ (fun v => decide (v < pw.cuts.getD 0 0)) (c.getD ci 0) (c.drop (ci + 1)) (decide_eq_true hlt)]
      · rw [hdc, @List.takeWhile_cons_of_pos ℚ (fun v => decide (v < pw.cuts.getD 0 0)) (c.getD ci 0) (c.drop (ci + 1)) (decide_eq_true hlt)]
        simp only [List.length_cons, hSlen]
      · intro j hj
        rw [hdc, @List.takeWhile_cons_of_pos ℚ (fun v => decide (v < pw.cuts.getD 0 0)) (c.getD ci 0) (c.drop (ci + 1)) (decide_eq_true hlt)]
        have hhi : (if ci = c.length - 1 ∨ pw.cuts.getD 0 0 ≤ c.getD (ci + 1) 0
            then pw.cuts.getD 0 0 else c.getD (ci + 1) 0) =
            (((c.drop (ci + 1)).takeWhile (fun v => decide (v < pw.cuts.getD 0 0))) ++
              [pw.cuts.getD 0 0]).getD 0 0 := by
          by_cases hA : ci = c.length - 1
          · rw [if_pos (Or.inl hA), List.drop_eq_nil_of_le (by omega),
              List.takeWhile_nil, List.nil_append, List.getD_cons_zero]
          · have hci1 : ci + 1 < c.length := by omega
            have hdc1 : c.drop (ci + 1) = c.getD (ci + 1) 0 :: c.drop (ci + 1 + 1) :=
              drop_getD_cons c 0 (ci + 1) hci1
            by_cases hB : pw.cuts.getD 0 0 ≤ c.getD (ci + 1) 0
            · rw [if_pos (Or.inr hB), hdc1,
                @List.takeWhile_cons_of_neg ℚ (fun v => decide (v < pw.cuts.getD 0 0)) (c.getD (ci + 1) 0) (c.drop (ci + 1 + 1)) (by simpa using not_lt_of_le hB),
                List.nil_append, List.getD_cons_zero]
            · rw [if_neg (by push_neg; exact ⟨hA, lt_of_not_le hB⟩), hdc1,
                @List.takeWhile_cons_of_pos ℚ (fun v => decide (v < pw.cuts.getD 0 0)) (c.getD (ci + 1) 0) (c.drop (ci + 1 + 1)) (decide_eq_true (lt_of_not_le hB)),
                List.cons_append, List.getD_cons_zero]
        cases j with
        | zero =>
          simp only [List.getD_cons_zero, List.cons_append, List.getD_cons_succ]
          rw [hhi]
          refine ⟨0, List.length_pos.mpr hne, ?_, Or.inr (Or.inl ⟨rfl, ?_⟩)⟩
          · intro s
            exact eval_elem_portion pw 0 (c.getD ci 0) _ s
          · rw [← hhi]
            split_ifs with hil
            · exact le_refl _
            · push_neg at hil
              exact le_of_lt hil.2
        | succ j0 =>
          simp only [List.length_cons] at hj
          simp only [List.getD_cons_succ, List.cons_append]
          exact hScov j0 (by omega)
    · -- first value already reaches the domain: exit immediately
      rw [partPre_exit pw c m ci (c.getD ci 0) hget hlt]
      refine ⟨ci, [], ?_, le_refl ci, by omega, ?_, ?_, ?_, ?_⟩
      · rw [hdc, @List.takeWhile_cons_of_neg ℚ (fun v => decide (v < pw.cuts.getD 0 0)) (c.getD ci 0) (c.drop (ci + 1)) (by simpa using hlt)]
      · rw [hdc, @List.dropWhile_cons_of_neg ℚ (fun v => decide (v < pw.cuts.getD 0 0)) (c.getD ci 0) (c.drop (ci + 1)) (by simpa using hlt), ← hdc]
      · intro v hv
        rw [hdc] at hv
        rcases List.mem_cons.mp hv with rfl | hv
        · exact le_of_not_lt hlt
        · exact le_trans (le_of_not_lt hlt)
            (le_of_lt (pairwise_drop_head_lt c hp ci hcilen v hv))
      · rw [hdc, @List.takeWhile_cons_of_neg ℚ (fun v => decide (v < pw.cuts.getD 0 0)) (c.getD ci 0) (c.drop (ci + 1)) (by simpa using hlt)]
        rfl
      · intro j hj
        simp at hj

/-! ## Assembling partition -/

/-- Splitting the reference merge at the front cut: values below it come
first, then the front cut, then the merge of the remaining cut lists. -/
theorem mergeStrict_split (front : ℚ) (rest : List ℚ) :
    ∀ c2 : List ℚ, c2.Pairwise (· < ·) →
      mergeStrict (front :: rest) c2 =
        c2.takeWhile (fun v => decide (v < front)) ++ front ::
          mergeStrict rest
            ((c2.dropWhile (fun v => decide (v < front))).filter
              (fun v => decide (front < v))) := by
  intro c2
  induction c2 with
  | nil =>
    intro _
    rw [List.takeWhile_nil, List.dropWhile_nil, List.filter_nil, List.nil_append,
      mergeStrict_nil_right, mergeStrict_nil_right]
  | cons y ys ih =>
    intro hp2
    rcases lt_trichotomy y front with h | h | h
    · rw [mergeStrict_cons_cons, if_neg (not_lt_of_lt h), if_pos h,
        @List.takeWhile_cons_of_pos ℚ (fun v => decide (v < front)) y ys
          (decide_eq_true h),
        @List.dropWhile_cons_of_pos ℚ (fun v => decide (v < front)) y ys
          (decide_eq_true h),
        List.cons_append, ih (List.Pairwise.of_cons hp2)]
    · rw [mergeStrict_cons_cons, if_neg (by rw [h]; exact lt_irrefl _),
        if_neg (by rw [h]; exact lt_irrefl _),
        @List.takeWhile_cons_of_neg ℚ (fun v => decide (v < front)) y ys
          (by simp [h]),
        @List.dropWhile_cons_of_neg ℚ (fun v => decide (v < front)) y ys
          (by simp [h]),
        List.nil_append]
      congr 1
      rw [@List.filter_cons_of_neg ℚ (fun v => decide (front < v)) y ys
          (by simp [h]),
        filter_lt_all front ys (fun v hv => h ▸ List.rel_of_pairwise_cons hp2 hv)]
    · rw [mergeStrict_cons_cons, if_pos h,
        @List.takeWhile_cons_of_neg ℚ (fun v => decide (v < front)) y ys
          (by simpa using not_lt_of_lt h),
        @List.dropWhile_cons_of_neg ℚ (fun v => decide (v < front)) y ys
          (by simpa using not_lt_of_lt h),
        List.nil_append]
      congr 1
      rw [@List.filter_cons_of_pos ℚ (fun v => decide (front < v)) y ys
          (decide_eq_true h),
        filter_lt_all front ys
          (fun v hv => lt_trans h (List.rel_of_pairwise_cons hp2 hv))]

/-- Top-level specification of `partition` when some input cut reaches the
domain: it succeeds, its cut sequence is the sorted duplicate-free merge,
it is structurally well-formed, and each output segment covers its cut
interval as a restriction of one input segment. -/
theorem partition_spec (pw : Pw) (c : List ℚ)
    (hlen : pw.cuts.length = pw.segs.length + 1)
    (hch : pw.cuts.Pairwise (· < ·)) (hne : pw.segs ≠ [])
    (hp : c.Pairwise (· < ·)) (hcne : c ≠ [])
    (hex : ∃ v ∈ c, pw.cuts.getD 0 0 ≤ v) :
    ∃ pw', partition pw c = some pw' ∧
      pw'.cuts = mergeStrict pw.cuts c ∧
      pw'.cuts.length = pw'.segs.length + 1 ∧
      (∀ j, j < pw'.segs.length →
        Covers pw (pw'.cuts.getD j 0) (pw'.cuts.getD (j + 1) 0)
          (pw'.segs.getD j [])) := by
  have hn1 : 0 < pw.segs.length := List.length_pos.mpr hne
  have hex0 : ∃ m, 0 ≤ m ∧ m < c.length ∧ pw.cuts.getD 0 0 ≤ c.getD m 0 := by
    obtain ⟨v, hvmem, hvge⟩ := hex
    obtain ⟨i, hi, rfl⟩ := List.getElem_of_mem hvmem
    exact ⟨i, Nat.zero_le i, hi, by rw [List.getD_eq_getElem c 0 hi]; exact hvge⟩
  obtain ⟨ci0, S0, hpre, -, hci0len, hdw, hge0, hS0len, hS0cov⟩ :=
    partPre_spec pw c hp hne (c.length + 1) 0 (by omega) (by omega) hex0
  rw [List.drop_zero] at hpre hdw hS0len hS0cov
  obtain ⟨hL1, hL2, hL3⟩ := partLoop_spec pw c hp hlen hch hne
    (pw.size + c.length + 2) 0 ci0 (pw.cuts.getD 0 0)
    (by simp only [Pw.size]; omega) (by omega) hci0len
    (fun h0 => ⟨le_refl _,
      chain_getD_lt pw.cuts (List.chain'_iff_pairwise.mpr hch) (by omega) (by omega)⟩)
    (fun h0 => absurd h0.symm (by omega))
    (fun v hv => by
      rcases lt_or_eq_of_le (hge0 v hv) with h | h
      · exact Or.inl h
      · exact Or.inr h.symm)
  refine ⟨⟨c.takeWhile (fun v => decide (v < pw.cuts.getD 0 0)) ++
      pw.cuts.getD 0 0 ::
        (partLoop (pw.size + c.length + 2) pw c 0 ci0 (pw.cuts.getD 0 0)).1,
      S0 ++ (partLoop (pw.size + c.length + 2) pw c 0 ci0 (pw.cuts.getD 0 0)).2⟩,
    partition_eq pw c hcne hne ci0 _ S0 hpre, ?_, ?_, ?_⟩
  · show _ ++ _ :: _ = mergeStrict pw.cuts c
    have hcuts0 : pw.cuts = pw.cuts.getD 0 0 :: pw.cuts.drop 1 := by
      have := drop_getD_cons pw.cuts 0 0 (by omega)
      rwa [List.drop_zero] at this
    conv_rhs => rw [hcuts0, mergeStrict_split (pw.cuts.getD 0 0) (pw.cuts.drop 1) c hp]
    rw [hL1, ← hdw]
  · simp only [List.length_append, List.length_cons, hS0len, hL2]
    omega
  · intro j hj
    simp only [List.length_append] at hj
    by_cases hjK : j < (c.takeWhile (fun v => decide (v < pw.cuts.getD 0 0))).length
    · have e1 : (c.takeWhile (fun v => decide (v < pw.cuts.getD 0 0)) ++
          pw.cuts.getD 0 0 :: (partLoop (pw.size + c.length + 2) pw c 0 ci0
            (pw.cuts.getD 0 0)).1).getD j 0 =
          (c.takeWhile (fun v => decide (v < pw.cuts.getD 0 0))).getD j 0 :=
        List.getD_append _ _ 0 j hjK
      rw [e1]
      have e3 : (S0 ++ (partLoop (pw.size + c.length + 2) pw c 0 ci0
          (pw.cuts.getD 0 0)).2).getD j [] = S0.getD j [] :=
        List.getD_append _ _ [] j (by omega)
      rw [e3]
      rcases Nat.lt_or_ge (j + 1)
        (c.takeWhile (fun v => decide (v < pw.cuts.getD 0 0))).length with hj1 | hj1
      · have e2 : (c.takeWhile (fun v => decide (v < pw.cuts.getD 0 0)) ++
            pw.cuts.getD 0 0 :: (partLoop (pw.size + c.length + 2) pw c 0 ci0
              (pw.cuts.getD 0 0)).1).getD (j + 1) 0 =
            (c.takeWhile (fun v => decide (v < pw.cuts.getD 0 0))).getD (j + 1) 0 :=
          List.getD_append _ _ 0 (j + 1) hj1
        have e2' : ((c.takeWhile (fun v => decide (v < pw.cuts.getD 0 0))) ++
            [pw.cuts.getD 0 0]).getD (j + 1) 0 =
            (c.takeWhile (fun v => decide (v < pw.cuts.getD 0 0))).getD (j + 1) 0 :=
          List.getD_append _ _ 0 (j + 1) hj1
        have h := hS0cov j (by omega)
        rw [e2'] at h
        rw [e2]
        exact h
      · have hj1e : j + 1 = (c.takeWhile (fun v => decide (v < pw.cuts.getD 0 0))).length := by
          omega
        have e2 : (c.takeWhile (fun v => decide (v < pw.cuts.getD 0 0)) ++
            pw.cuts.getD 0 0 :: (partLoop (pw.size + c.length + 2) pw c 0 ci0
              (pw.cuts.getD 0 0)).1).getD (j + 1) 0 = pw.cuts.getD 0 0 := by
          rw [List.getD_append_right _ _ 0 (j + 1) (by omega), hj1e]
          simp
        have e2' : ((c.takeWhile (fun v => decide (v < pw.cuts.getD 0 0))) ++
            [pw.cuts.getD 0 0]).getD (j + 1) 0 = pw.cuts.getD 0 0 := by
          rw [List.getD_append_right _ _ 0 (j + 1) (by omega), hj1e]
          simp
        have h := hS0cov j (by omega)
        rw [e2'] at h
        rw [e2]
        exact h
    · have hjK' : (c.takeWhile (fun v => decide (v < pw.cuts.getD 0 0))).length ≤ j := by
        omega
      have e1 : (c.takeWhile (fun v => decide (v < pw.cuts.getD 0 0)) ++
          pw.cuts.getD 0 0 :: (partLoop (pw.size + c.length + 2) pw c 0 ci0
            (pw.cuts.getD 0 0)).1).getD j 0 =
          (pw.cuts.getD 0 0 :: (partLoop (pw.size + c.length + 2) pw c 0 ci0
            (pw.cuts.getD 0 0)).1).getD
            (j - (c.takeWhile (fun v => decide (v < pw.cuts.getD 0 0))).length) 0 :=
        List.getD_append_right _ _ 0 j hjK'
      have e2 : (c.takeWhile (fun v => decide (v < pw.cuts.getD 0 0)) ++
          pw.cuts.getD 0 0 :: (partLoop (pw.size + c.length + 2) pw c 0 ci0
            (pw.cuts.getD 0 0)).1).getD (j + 1) 0 =
          (partLoop (pw.size + c.length + 2) pw c 0 ci0 (pw.cuts.getD 0 0)).1.getD
            (j - (c.takeWhile (fun v => decide (v < pw.cuts.getD 0 0))).length) 0 := by
        rw [List.getD_append_right _ _ 0 (j + 1) (by omega)]
        have : j + 1 - (c.takeWhile (fun v => decide (v < pw.cuts.getD 0 0))).length =
            (j - (c.takeWhile (fun v => decide (v < pw.cuts.getD 0 0))).length) + 1 := by
          omega
        rw [this, List.getD_cons_succ]
      have e3 : (S0 ++ (partLoop (pw.size + c.length + 2) pw c 0 ci0
          (pw.cuts.getD 0 0)).2).getD j [] =
          (partLoop (pw.size + c.length + 2) pw c 0 ci0 (pw.cuts.getD 0 0)).2.getD
            (j - (c.takeWhile (fun v => decide (v < pw.cuts.getD 0 0))).length) [] := by
        rw [List.getD_append_right _ _ [] j (by omega), hS0len]
      rw [e1, e2, e3]
      exact hL3 (j - (c.takeWhile (fun v => decide (v < pw.cuts.getD 0 0))).length)
        (by omega)

/-! ## Value preservation across a covering refinement -/

theorem affine_segT (lo hi t : ℚ) (h : hi - lo ≠ 0) :
    (1 - (t - lo) / (hi - lo)) * lo + (t - lo) / (hi - lo) * hi = t := by
  field_simp
  ring

/-- If every segment of `pw'` covers its cut interval as a restriction of
a segment of `pw`, then for any `t` inside both domains (and `pw'`'s final
cut not before `pw`'s) the two containers evaluate identically. -/
theorem covers_valueAt (pw pw' : Pw)
    (hlen : pw.cuts.length = pw.segs.length + 1)
    (hch : pw.cuts.Pairwise (· < ·)) (hne : pw.segs ≠ [])
    (hlen' : pw'.cuts.length = pw'.segs.length + 1)
    (hch' : pw'.cuts.Pairwise (· < ·)) (hne' : pw'.segs ≠ [])
    (hcov : ∀ j, j < pw'.segs.length →
      Covers pw (pw'.cuts.getD j 0) (pw'.cuts.getD (j + 1) 0) (pw'.segs.getD j []))
    (t : ℚ) (hfront : pw.cuts.getD 0 0 ≤ t) (hfront' : pw'.cuts.getD 0 0 ≤ t)
    (hback : t ≤ pw.cuts.getD pw.size 0)
    (hbb : pw.cuts.getD pw.size 0 ≤ pw'.cuts.getD pw'.size 0) :
    pw'.valueAt t = pw.valueAt t := by
  have hn : 0 < pw.segs.length := List.length_pos.mpr hne
  have hn' : 0 < pw'.segs.length := List.length_pos.mpr hne'
  have hchc := List.chain'_iff_pairwise.mpr hch
  have hchc' := List.chain'_iff_pairwise.mpr hch'
  simp only [Pw.size] at hback hbb
  by_cases hA : t < pw'.cuts.getD pw'.segs.length 0
  · -- t strictly before pw''s final cut: the binary search localizes it.
    obtain ⟨hk1, hk2, hk3⟩ := pw'.segN_spec t hlen' hchc' hfront' hA
    obtain ⟨k, hk, heval, hdisj⟩ := hcov (pw'.segN t) hk3
    have hΔ' : pw'.cuts.getD (pw'.segN t + 1) 0 - pw'.cuts.getD (pw'.segN t) 0 ≠ 0 :=
      sub_ne_zero_of_ne (ne_of_gt (chain_getD_lt pw'.cuts hchc'
        (Nat.lt_succ_self _) (by simp only [Pw.size] at hk3; omega)))
    have hcol : (1 - pw'.segT t (pw'.segN t)) * pw'.cuts.getD (pw'.segN t) 0 +
        pw'.segT t (pw'.segN t) * pw'.cuts.getD (pw'.segN t + 1) 0 = t := by
      rw [Pw.segT]
      exact affine_segT _ _ _ hΔ'
    have hval' : pw'.valueAt t = Poly.eval (pw.segs.getD k [])
        ((t - pw.cuts.getD k 0) /
          (pw.cuts.getD (k + 1) 0 - pw.cuts.getD k 0)) := by
      show Poly.eval (pw'.segs.getD (pw'.segN t) []) (pw'.segT t (pw'.segN t)) = _
      rw [heval (pw'.segT t (pw'.segN t)), hcol]
    rcases hdisj with ⟨ha, hb⟩ | ⟨hk0, hb⟩ | ⟨hklast, hb⟩
    · have htk : pw.cuts.getD k 0 ≤ t := le_trans ha hk1
      have htk1 : t < pw.cuts.getD (k + 1) 0 := lt_of_lt_of_le hk2 hb
      have htb : t < pw.cuts.getD pw.size 0 :=
        lt_of_lt_of_le htk1 (chain_getD_le pw.cuts hchc
          (by simp only [Pw.size]; omega) (by simp only [Pw.size]; omega))
      obtain ⟨hs1, hs2, hs3⟩ := pw.segN_spec t hlen hchc hfront htb
      have hkk : pw.segN t = k := segIdx_unique pw.cuts hchc
        (by simp only [Pw.size] at hs3; omega) (by omega) hs1 hs2 htk htk1
      have hpw : pw.valueAt t = Poly.eval (pw.segs.getD k []) (pw.segT t k) := by
        show Poly.eval (pw.segs.getD (pw.segN t) []) (pw.segT t (pw.segN t)) = _
        rw [hkk]
      rw [hval', hpw, Pw.segT]
    · exact absurd (lt_of_lt_of_le hk2 hb) (not_lt_of_le hfront)
    · have hcl : pw.cuts.getD pw.size 0 ≤ t := le_trans hb hk1
      have hsegN : pw.segN t = pw.size - 1 :=
        Pw.segNL_high pw t 0 (not_lt_of_le hfront) hcl
      have hpw : pw.valueAt t =
          Poly.eval (pw.segs.getD (pw.segs.length - 1) [])
            (pw.segT t (pw.segs.length - 1)) := by
        show Poly.eval (pw.segs.getD (pw.segN t) []) (pw.segT t (pw.segN t)) = _
        rw [hsegN]
        rfl
      rw [hval', hpw, ← hklast, Pw.segT]
  · -- t equals both final cuts: both lookups clamp to the last segment.
    have hteq' : t = pw'.cuts.getD pw'.segs.length 0 :=
      le_antisymm (le_trans hback hbb) (le_of_not_lt hA)
    have hteq : t = pw.cuts.getD pw.segs.length 0 :=
      le_antisymm hback (le_trans hbb (le_of_not_lt hA))
    have hsz' : pw'.segs.length - 1 + 1 = pw'.segs.length := by omega
    have hsz : pw.segs.length - 1 + 1 = pw.segs.length := by omega
    have hsegN' : pw'.segN t = pw'.size - 1 :=
      Pw.segNL_high pw' t 0 (not_lt_of_le hfront') (le_of_not_lt hA)
    have hsegN : pw.segN t = pw.size - 1 :=
      Pw.segNL_high pw t 0 (not_lt_of_le hfront) (le_of_eq hteq.symm)
    obtain ⟨k, hk, heval, hdisj⟩ := hcov (pw'.segs.length - 1) (by omega)
    rw [hsz'] at heval hdisj
    have hΔ' : pw'.cuts.getD pw'.segs.length 0 -
        pw'.cuts.getD (pw'.segs.length - 1) 0 ≠ 0 :=
      sub_ne_zero_of_ne (ne_of_gt (chain_getD_lt pw'.cuts hchc'
        (by omega) (by omega)))
    have hcol : (1 - pw'.segT t (pw'.segs.length - 1)) *
        pw'.cuts.getD (pw'.segs.length - 1) 0 +
        pw'.segT t (pw'.segs.length - 1) * pw'.cuts.getD pw'.segs.length 0 = t := by
      rw [Pw.segT, hsz']
      exact affine_segT _ _ _ hΔ'
    have hval' : pw'.valueAt t = Poly.eval (pw.segs.getD k [])
        ((t - pw.cuts.getD k 0) /
          (pw.cuts.getD (k + 1) 0 - pw.cuts.getD k 0)) := by
      show Poly.eval (pw'.segs.getD (pw'.segN t) []) (pw'.segT t (pw'.segN t)) = _
      rw [hsegN']
      show Poly.eval (pw'.segs.getD (pw'.segs.length - 1) [])
        (pw'.segT t (pw'.segs.length - 1)) = _
      rw [heval (pw'.segT t (pw'.segs.length - 1)), hcol]
    have hkeq : k = pw.segs.length - 1 := by
      rcases hdisj with ⟨ha, hb⟩ | ⟨hk0, hb⟩ | ⟨hklast, hb⟩
      · -- the final merged cut is pw's final cut, so k must be the last piece
        have hnk : pw.cuts.getD pw.segs.length 0 ≤ pw.cuts.getD (k + 1) 0 :=
          le_trans (le_of_eq (hteq.symm.trans hteq')) hb
        by_contra hne2
        have hlt : pw.cuts.getD (k + 1) 0 < pw.cuts.getD pw.segs.length 0 :=
          chain_getD_lt pw.cuts hchc (by omega) (by omega)
        exact absurd (lt_of_le_of_lt hnk hlt) (lt_irrefl _)
      · exfalso
        have h0n : pw.cuts.getD 0 0 < pw.cuts.getD pw.segs.length 0 :=
          chain_getD_lt pw.cuts hchc (by omega) (by omega)
        have hle0 : pw.cuts.getD pw.segs.length 0 ≤ pw.cuts.getD 0 0 :=
          le_trans (le_of_eq (hteq.symm.trans hteq')) hb
        exact absurd (lt_of_le_of_lt hle0 h0n) (lt_irrefl _)
      · exact hklast
    have hpw : pw.valueAt t =
        Poly.eval (pw.segs.getD (pw.segs.length - 1) [])
          (pw.segT t (pw.segs.length - 1)) := by
      show Poly.eval (pw.segs.getD (pw.segN t) []) (pw.segT t (pw.segN t)) = _
      rw [hsegN]
      rfl
    rw [hval', hpw, ← hkeq, Pw.segT]

theorem getLast?_cons_getLastD (x : ℚ) (l : List ℚ) :
    (x :: l).getLast? = some ((x :: l).getLastD 0) := by
  induction l generalizing x with
  | nil => rfl
  | cons y r ih =>
    rw [List.getLast?_cons_cons, ih y]
    simp only [List.getLastD_cons]

/-- If both endpoints select the same segment, the one-segment branch
condition of `portion` holds. -/
theorem portion_single_branch_cond (pw : Pw)
    (hlen : pw.cuts.length = pw.segs.length + 1) (hch : pw.cuts.Chain' (· < ·))
    (hne : pw.segs ≠ []) (F T : ℚ)
    (hij : pw.segN F = pw.segN T) :
    pw.segN F = pw.size - 1 ∨ T < pw.cuts.getD (pw.segN F + 1) 0 := by
  have hn : 0 < pw.segs.length := List.length_pos.mpr hne
  by_cases h1 : T < pw.cuts.getD 0 0
  · right
    have h0 : pw.segN T = 0 := Pw.segNL_low pw T 0 h1
    rw [hij, h0]
    exact lt_trans h1 (chain_getD_lt pw.cuts hch (by omega) (by omega))
  · by_cases h2 : T < pw.cuts.getD pw.size 0
    · right
      obtain ⟨-, ht2, -⟩ := pw.segN_spec T hlen hch (le_of_not_lt h1) h2
      rw [hij]
      exact ht2
    · left
      rw [hij]
      exact Pw.segNL_high pw T 0 h1 (le_of_not_lt h2)

/-! ## Pointwise algebra helpers -/

theorem two_mem_length (l : List ℚ) (x y : ℚ) (hx : x ∈ l) (hy : y ∈ l)
    (hxy : x ≠ y) : 2 ≤ l.length := by
  rcases l with - | ⟨z, - | ⟨w, r⟩⟩
  · simp at hx
  · simp at hx hy
    exact absurd (hx.trans hy.symm) hxy
  · simp only [List.length_cons]
    omega

/-- `segN` depends only on the cut list and the segment count. -/
theorem segN_congr (f g : Pw) (hc : f.cuts = g.cuts)
    (hs : f.segs.length = g.segs.length) (t : ℚ) : f.segN t = g.segN t := by
  simp only [Pw.segN, Pw.segNL, Pw.size, hc, hs]

/-- `segT` depends only on the cut list. -/
theorem segT_congr (f g : Pw) (hc : f.cuts = g.cuts) (t : ℚ) (i : ℕ) :
    f.segT t i = g.segT t i := by
  simp only [Pw.segT, hc]

/-- Evaluating a zipped-segment container: when both operands share the cut
sequence and the segment count, the value is the pointwise combination. -/
theorem pw_zip_valueAt (pa pb : Pw) (op : Poly → Poly → Poly) (f : ℚ → ℚ → ℚ)
    (hop : ∀ p q s, Poly.eval (op p q) s = f (Poly.eval p s) (Poly.eval q s))
    (hcc : pb.cuts = pa.cuts) (hsz : pa.segs.length = pb.segs.length)
    (t : ℚ) (hn : pa.segN t < pa.segs.length) :
    Pw.valueAt ⟨pa.cuts, List.zipWith op pa.segs pb.segs⟩ t =
      f (pa.valueAt t) (pb.valueAt t) := by
  have hzlen : (List.zipWith op pa.segs pb.segs).length = pa.segs.length := by
    rw [List.length_zipWith]
    omega
  have hN : Pw.segN ⟨pa.cuts, List.zipWith op pa.segs pb.segs⟩ t = pa.segN t :=
    segN_congr ⟨pa.cuts, List.zipWith op pa.segs pb.segs⟩ pa rfl hzlen t
  have hbN : pb.segN t = pa.segN t := segN_congr pb pa hcc hsz.symm t
  have hpbv : pb.valueAt t =
      Poly.eval (pb.segs.getD (pa.segN t) []) (pa.segT t (pa.segN t)) := by
    show Poly.eval (pb.segs.getD (pb.segN t) []) (pb.segT t (pb.segN t)) = _
    rw [hbN, segT_congr pb pa hcc]
  have hpav : pa.valueAt t =
      Poly.eval (pa.segs.getD (pa.segN t) []) (pa.segT t (pa.segN t)) := rfl
  show Poly.eval ((List.zipWith op pa.segs pb.segs).getD
      (Pw.segN ⟨pa.cuts, List.zipWith op pa.segs pb.segs⟩ t) [])
      (Pw.segT ⟨pa.cuts, List.zipWith op pa.segs pb.segs⟩ t
        (Pw.segN ⟨pa.cuts, List.zipWith op pa.segs pb.segs⟩ t)) = _
  rw [hN]
  have hT : Pw.segT ⟨pa.cuts, List.zipWith op pa.segs pb.segs⟩ t (pa.segN t) =
      pa.segT t (pa.segN t) := rfl
  rw [hT, List.getD_eq_getElem _ [] (by omega : pa.segN t <
      (List.zipWith op pa.segs pb.segs).length), List.getElem_zipWith, hop,
    hpav, hpbv, List.getD_eq_getElem pa.segs [] hn,
    List.getD_eq_getElem pb.segs [] (by omega)]

/-! ## Claim theorems -/

/-- Claim C1: the spec asserts that `invariants()` holds for every Piecewise
value produced by a public operation, `portion` included.  Evaluating the
code refutes this: on the well-formed two-segment function with cuts
`[0,1,2]`, `portion(f, 1/2, 1)` — with the upper endpoint at the interior
cut `1` — produces a container with 2 cuts and 2 segments (a spurious
zero-width trailing segment and a missing final cut), so `invariants()` is
false on its output. -/
theorem portion_interior_cut_breaks_invariants :
    Pw.invariants ⟨[0, 1, 2], [[0, 1], [1, 1]]⟩ = true ∧
    Pw.invariants (portion ⟨[0, 1, 2], [[0, 1], [1, 1]]⟩ (1/2) 1) = false ∧
    (portion ⟨[0, 1, 2], [[0, 1], [1, 1]]⟩ (1/2) 1).segs.length =
      (portion ⟨[0, 1, 2], [[0, 1], [1, 1]]⟩ (1/2) 1).cuts.length := by
  refine ⟨by decide, by decide, by decide⟩

/-- Claim C2: the spec says that pullback entries whose tagged segment
indices differ by exactly 1 are the consistent case, and only a larger jump
is fatal.  The consistency check in `compose` is
`assert(std::abs(int(cut->second - next->second)) < 1)`, which accepts only
EQUAL indices: a difference of exactly 1 (in either direction) already
fails the assertion, so composition aborts precisely on the case the spec
calls consistent. -/
theorem compose_assert_rejects_adjacent_indices :
    composeAssertCond 1 1 = true ∧
    composeAssertCond 1 2 = false ∧
    composeAssertCond 2 1 = false := by
  refine ⟨by decide, by decide, by decide⟩

/-- Claim C6: the spec asserts `portion(f, lo, hi)` evaluated at
`t ∈ [lo, hi]` equals `f(t)`.  Evaluating the code refutes this when `hi`
coincides with an interior cut: on cuts `[0,2,4]`, `portion(f, 1, 2)` builds
a malformed container (2 cuts, 2 segments) on which `valueAt` reads
`cuts[size()]` out of bounds, so the evaluation at `t = 3/2` is undefined
rather than `f(3/2) = 3/4`. -/
theorem portion_valueAt_broken_at_interior_cut :
    Pw.invariants ⟨[0, 2, 4], [[0, 1], [2, 3]]⟩ = true ∧
    Pw.valueAt ⟨[0, 2, 4], [[0, 1], [2, 3]]⟩ (3/2) = 3/4 ∧
    Pw.valueAtChecked (portion ⟨[0, 2, 4], [[0, 1], [2, 3]]⟩ 1 2) (3/2) = none := by
  refine ⟨by decide, by decide, by decide⟩

/-- Claim C7 (counterexample): the claim quantifies over all `from`, `to`,
but with `from = to` the code returns the canonical empty Piecewise, whose
cut sequence is empty — its domain is not `[min(from,to), max(from,to)]`
= `[1/2, 1/2]` (there is no front cut at all). -/
theorem portion_point_range_collapses :
    (⟨[0, 1], [[0, 1]]⟩ : Pw).segs ≠ [] ∧
    Pw.invariants ⟨[0, 1], [[0, 1]]⟩ = true ∧
    (portion ⟨[0, 1], [[0, 1]]⟩ (1/2) (1/2)).cuts.head? = none := by
  refine ⟨by decide, by decide, by decide⟩

/-- Claim C8: the spec (and the code's own comment "0 will result in an
empty Piecewise") says `scaleDomain(0)` collapses the function to the empty
state and is not an error; but the function begins with `assert(s > 0)`,
which fires on `s = 0`, so the documented collapse branch is dead code and
the call is a fail-fast error.  For `s > 0` every cut is multiplied by `s`
as claimed. -/
theorem scaleDomain_zero_asserts :
    Pw.scaleDomain ⟨[0, 1], [[1]]⟩ 0 = none ∧
    Pw.scaleDomain ⟨[0, 1], [[1]]⟩ 2 = some ⟨[0, 2], [[1]]⟩ := by
  refine ⟨by decide, by decide⟩

/-- Claim C9: for every non-empty piecewise function `f` satisfying the
container invariants, with exact segment calculus: `derivative(integral(f))`
equals `f` (structurally); `integral(derivative(f))` has the same cuts and
equals `f` up to a per-segment additive constant; `integral(f)` is
continuous across every interior cut; and the running constant is seeded
from the first segment's value at its local start. -/
theorem derivative_integral_inverse (a : Pw) (hinv : a.invariants = true)
    (hne : a.segs ≠ []) :
    pwDerivative (pwIntegral a) = a ∧
    (pwIntegral (pwDerivative a)).cuts = a.cuts ∧
    (∀ i, i < a.segs.length → ∃ c,
      (pwIntegral (pwDerivative a)).segs.getD i [] =
        Poly.offset (a.segs.getD i []) c) ∧
    (∀ i, i + 1 < a.segs.length →
      Poly.at1 ((pwIntegral a).segs.getD i []) =
        Poly.at0 ((pwIntegral a).segs.getD (i + 1) [])) ∧
    Poly.at0 ((pwIntegral a).segs.getD 0 []) = Poly.at0 (a.segs.getD 0 []) := by
  rcases (Pw.invariants_iff a).mp hinv with ⟨hs, -⟩ | ⟨hlen, hch⟩
  · exact absurd hs hne
  have hlt : a.segs.length < a.cuts.length := by omega
  refine ⟨?_, rfl, ?_, ?_, ?_⟩
  · show pwDerivative (pwIntegral a) = a
    simp only [pwDerivative, pwIntegral]
    rw [derivSegs_integralSegs a.segs a.cuts _ hch hlt]
  · intro i hi
    exact integralSegs_derivSegs a.segs a.cuts _ hch hlt i hi
  · intro i hi
    exact integralSegs_chain a.segs a.cuts _ hlt i hi
  · exact integralSegs_head a.segs a.cuts _ hne hlt

/-- Witness for C9 at a concrete two-segment function. -/
theorem derivative_integral_inverse_witness :
    pwDerivative (pwIntegral ⟨[0, 1, 3], [[0, 1], [2]]⟩) = ⟨[0, 1, 3], [[0, 1], [2]]⟩ ∧
    (pwIntegral (pwDerivative ⟨[0, 1, 3], [[0, 1], [2]]⟩)).cuts =
      (⟨[0, 1, 3], [[0, 1], [2]]⟩ : Pw).cuts ∧
    (∀ i, i < (⟨[0, 1, 3], [[0, 1], [2]]⟩ : Pw).segs.length → ∃ c,
      (pwIntegral (pwDerivative ⟨[0, 1, 3], [[0, 1], [2]]⟩)).segs.getD i [] =
        Poly.offset ((⟨[0, 1, 3], [[0, 1], [2]]⟩ : Pw).segs.getD i []) c) ∧
    (∀ i, i + 1 < (⟨[0, 1, 3], [[0, 1], [2]]⟩ : Pw).segs.length →
      Poly.at1 ((pwIntegral ⟨[0, 1, 3], [[0, 1], [2]]⟩).segs.getD i []) =
        Poly.at0 ((pwIntegral ⟨[0, 1, 3], [[0, 1], [2]]⟩).segs.getD (i + 1) [])) ∧
    Poly.at0 ((pwIntegral ⟨[0, 1, 3], [[0, 1], [2]]⟩).segs.getD 0 []) =
      Poly.at0 ((⟨[0, 1, 3], [[0, 1], [2]]⟩ : Pw).segs.getD 0 []) :=
  derivative_integral_inverse ⟨[0, 1, 3], [[0, 1], [2]]⟩ (by decide) (by decide)

/-- Claim C5: for every non-empty piecewise function `f` satisfying the
container invariants, `partition(f, f.cuts)` is structurally equal to `f`:
the same cut sequence and the same segment sequence — refining a function
by its own cuts is a no-op. -/
theorem partition_by_own_cuts_noop (f : Pw) (hinv : f.invariants = true)
    (hne : f.segs ≠ []) : partition f f.cuts = some f := by
  rcases (Pw.invariants_iff f).mp hinv with ⟨hs, -⟩ | ⟨hlen, hch⟩
  · exact absurd hs hne
  · exact partition_self f hlen hch hne

/-- Witness for C5 at a concrete two-segment function. -/
theorem partition_by_own_cuts_noop_witness :
    Pw.invariants ⟨[0, 1, 2], [[0, 1], [1, 1]]⟩ = true ∧
    (⟨[0, 1, 2], [[0, 1], [1, 1]]⟩ : Pw).segs ≠ [] ∧
    partition ⟨[0, 1, 2], [[0, 1], [1, 1]]⟩ [0, 1, 2] =
      some ⟨[0, 1, 2], [[0, 1], [1, 1]]⟩ :=
  ⟨by decide, by decide,
    partition_by_own_cuts_noop ⟨[0, 1, 2], [[0, 1], [1, 1]]⟩ (by decide) (by decide)⟩

/-- Claim C4, counterexample to the unrestricted statement: with the
well-formed one-segment functions on `[0,1]` and `[-2,-1]` (disjoint
domains), `partition(a, b.cuts)` hits the pre-domain loop's out-of-bounds
read (every cut of `b` lies strictly before `a`'s domain), while
`partition(b, a.cuts)` succeeds — so the two cut sequences cannot be
equal. -/
theorem partition_mutual_cuts_oob_counterexample :
    Pw.invariants ⟨[0, 1], [[1]]⟩ = true ∧
    Pw.invariants ⟨[-2, -1], [[1]]⟩ = true ∧
    partition ⟨[0, 1], [[1]]⟩ (Pw.cuts ⟨[-2, -1], [[1]]⟩) = none ∧
    partition ⟨[-2, -1], [[1]]⟩ (Pw.cuts ⟨[0, 1], [[1]]⟩) =
      some ⟨[-2, -1, 0, 1], [[1], [1, 0], [1, 0]]⟩ := by
  refine ⟨by decide, by decide, by decide, by decide⟩

/-- Claim C4 (amended): for non-empty well-formed `a` and `b` whose domains
overlap (each one's first cut is at or before the other's last cut), both
mutual partitions succeed and produce identical cut sequences — each equals
the sorted duplicate-free merge of the two cut sequences. -/
theorem partition_mutual_cuts_agree (a b : Pw)
    (hinva : a.invariants = true) (hinvb : b.invariants = true)
    (hnea : a.segs ≠ []) (hneb : b.segs ≠ [])
    (hov1 : a.cuts.getD 0 0 ≤ b.cuts.getD b.size 0)
    (hov2 : b.cuts.getD 0 0 ≤ a.cuts.getD a.size 0) :
    ∃ pa pb, partition a b.cuts = some pa ∧ partition b a.cuts = some pb ∧
      pa.cuts = pb.cuts := by
  rcases (Pw.invariants_iff a).mp hinva with ⟨hs, -⟩ | ⟨hlena, hcha⟩
  · exact absurd hs hnea
  rcases (Pw.invariants_iff b).mp hinvb with ⟨hs, -⟩ | ⟨hlenb, hchb⟩
  · exact absurd hs hneb
  have hpa := List.chain'_iff_pairwise.mp hcha
  have hpb := List.chain'_iff_pairwise.mp hchb
  have hacne : a.cuts ≠ [] := by
    intro h
    rw [h] at hlena
    simp only [List.length_nil] at hlena
    omega
  have hbcne : b.cuts ≠ [] := by
    intro h
    rw [h] at hlenb
    simp only [List.length_nil] at hlenb
    omega
  have hexa : ∃ v ∈ b.cuts, a.cuts.getD 0 0 ≤ v :=
    ⟨b.cuts.getD b.size 0,
      getD_mem b.cuts 0 b.size (by simp only [Pw.size]; omega), hov1⟩
  have hexb : ∃ v ∈ a.cuts, b.cuts.getD 0 0 ≤ v :=
    ⟨a.cuts.getD a.size 0,
      getD_mem a.cuts 0 a.size (by simp only [Pw.size]; omega), hov2⟩
  obtain ⟨pa, hpaeq, hpacuts, -, -⟩ :=
    partition_spec a b.cuts hlena hpa hnea hpb hbcne hexa
  obtain ⟨pb, hpbeq, hpbcuts, -, -⟩ :=
    partition_spec b a.cuts hlenb hpb hneb hpa hacne hexb
  exact ⟨pa, pb, hpaeq, hpbeq, by rw [hpacuts, hpbcuts, mergeStrict_comm]⟩

/-- Witness for the amended C4 at two overlapping one-segment functions. -/
theorem partition_mutual_cuts_agree_witness :
    ∃ pa pb, partition ⟨[0, 2], [[1]]⟩ (Pw.cuts ⟨[1, 3], [[2]]⟩) = some pa ∧
      partition ⟨[1, 3], [[2]]⟩ (Pw.cuts ⟨[0, 2], [[1]]⟩) = some pb ∧
      pa.cuts = pb.cuts :=
  partition_mutual_cuts_agree ⟨[0, 2], [[1]]⟩ ⟨[1, 3], [[2]]⟩ (by decide)
    (by decide) (by decide) (by decide) (by decide) (by decide)

/-- Claim C3: for non-empty well-formed `a` and `b` and any `t` in the
shared domain, the binary operators mutually partition both operands into
containers with identical cut sequences and then operate pairwise per
segment, so that `(a + b)(t) = a(t) + b(t)` and `(a * b)(t) = a(t) * b(t)`
(segment arithmetic exact over ℚ). -/
theorem pw_add_mul_pointwise (a b : Pw)
    (hinva : a.invariants = true) (hinvb : b.invariants = true)
    (hnea : a.segs ≠ []) (hneb : b.segs ≠ []) (t : ℚ)
    (hta : a.cuts.getD 0 0 ≤ t) (htb : b.cuts.getD 0 0 ≤ t)
    (hta' : t ≤ a.cuts.getD a.size 0) (htb' : t ≤ b.cuts.getD b.size 0) :
    ∃ pa pb s m, partition a b.cuts = some pa ∧ partition b a.cuts = some pb ∧
      pa.cuts = pb.cuts ∧
      pwAdd a b = some s ∧ pwMul a b = some m ∧
      s.cuts = pa.cuts ∧ m.cuts = pa.cuts ∧
      s.valueAt t = a.valueAt t + b.valueAt t ∧
      m.valueAt t = a.valueAt t * b.valueAt t := by
  rcases (Pw.invariants_iff a).mp hinva with ⟨hs, -⟩ | ⟨hlena, hcha⟩
  · exact absurd hs hnea
  rcases (Pw.invariants_iff b).mp hinvb with ⟨hs, -⟩ | ⟨hlenb, hchb⟩
  · exact absurd hs hneb
  have hpwa := List.chain'_iff_pairwise.mp hcha
  have hpwb := List.chain'_iff_pairwise.mp hchb
  have hna : 0 < a.segs.length := List.length_pos.mpr hnea
  have hnb : 0 < b.segs.length := List.length_pos.mpr hneb
  have hacne : a.cuts ≠ [] := by
    intro h
    rw [h] at hlena
    simp only [List.length_nil] at hlena
    omega
  have hbcne : b.cuts ≠ [] := by
    intro h
    rw [h] at hlenb
    simp only [List.length_nil] at hlenb
    omega
  have hexa : ∃ v ∈ b.cuts, a.cuts.getD 0 0 ≤ v :=
    ⟨b.cuts.getD b.size 0,
      getD_mem b.cuts 0 b.size (by simp only [Pw.size]; omega),
      le_trans hta htb'⟩
  have hexb : ∃ v ∈ a.cuts, b.cuts.getD 0 0 ≤ v :=
    ⟨a.cuts.getD a.size 0,
      getD_mem a.cuts 0 a.size (by simp only [Pw.size]; omega),
      le_trans htb hta'⟩
  obtain ⟨pa, hpaeq, hpacuts, hlenpa, hcova⟩ :=
    partition_spec a b.cuts hlena hpwa hnea hpwb hbcne hexa
  obtain ⟨pb, hpbeq, hpbcuts, hlenpb, hcovb⟩ :=
    partition_spec b a.cuts hlenb hpwb hneb hpwa hacne hexb
  have hcc : pb.cuts = pa.cuts := by
    rw [hpacuts, hpbcuts, mergeStrict_comm]
  -- the merged cut lists: sortedness, membership of the operand endpoints
  have hppa : pa.cuts.Pairwise (· < ·) := by
    rw [hpacuts]
    exact mergeStrict_pairwise a.cuts b.cuts hpwa hpwb
  have hppb : pb.cuts.Pairwise (· < ·) := by
    rw [hcc]
    exact hppa
  have hafm : a.cuts.getD 0 0 ∈ pa.cuts := by
    rw [hpacuts]
    exact (mergeStrict_mem _ _ _).mpr (Or.inl (getD_mem a.cuts 0 0 (by omega)))
  have habm : a.cuts.getD a.size 0 ∈ pa.cuts := by
    rw [hpacuts]
    exact (mergeStrict_mem _ _ _).mpr
      (Or.inl (getD_mem a.cuts 0 a.size (by simp only [Pw.size]; omega)))
  have hbfm : b.cuts.getD 0 0 ∈ pb.cuts := by
    rw [hpbcuts]
    exact (mergeStrict_mem _ _ _).mpr (Or.inl (getD_mem b.cuts 0 0 (by omega)))
  have hbbm : b.cuts.getD b.size 0 ∈ pb.cuts := by
    rw [hpbcuts]
    exact (mergeStrict_mem _ _ _).mpr
      (Or.inl (getD_mem b.cuts 0 b.size (by simp only [Pw.size]; omega)))
  have hfba : a.cuts.getD 0 0 < a.cuts.getD a.size 0 :=
    chain_getD_lt a.cuts hcha (by simp only [Pw.size]; omega)
      (by simp only [Pw.size]; omega)
  have hpane : pa.segs ≠ [] := by
    have h2 := two_mem_length pa.cuts _ _ hafm habm (ne_of_lt hfba)
    exact List.length_pos.mp (by omega)
  have hfbb : b.cuts.getD 0 0 < b.cuts.getD b.size 0 :=
    chain_getD_lt b.cuts hchb (by simp only [Pw.size]; omega)
      (by simp only [Pw.size]; omega)
  have hpbne : pb.segs ≠ [] := by
    have h2 := two_mem_length pb.cuts _ _ hbfm hbbm (ne_of_lt hfbb)
    exact List.length_pos.mp (by omega)
  -- domain bounds of the merged containers
  have hpafront : pa.cuts.getD 0 0 ≤ t :=
    le_trans (sorted_getD_head_le pa.cuts hppa _ hafm) hta
  have hpbfront : pb.cuts.getD 0 0 ≤ t :=
    le_trans (sorted_getD_head_le pb.cuts hppb _ hbfm) htb
  have hbba : a.cuts.getD a.size 0 ≤ pa.cuts.getD pa.size 0 :=
    sorted_le_getD_last pa.cuts hppa _ habm pa.size hlenpa
  have hbbb : b.cuts.getD b.size 0 ≤ pb.cuts.getD pb.size 0 :=
    sorted_le_getD_last pb.cuts hppb _ hbbm pb.size hlenpb
  -- value preservation under refinement
  have hvala : pa.valueAt t = a.valueAt t :=
    covers_valueAt a pa hlena hpwa hnea hlenpa hppa hpane hcova t hta hpafront
      hta' hbba
  have hvalb : pb.valueAt t = b.valueAt t :=
    covers_valueAt b pb hlenb hpwb hneb hlenpb hppb hpbne hcovb t htb hpbfront
      htb' hbbb
  -- sizes agree, so the asserts pass
  have hlcc : pb.cuts.length = pa.cuts.length := congrArg List.length hcc
  have hsz : pa.size = pb.size := by
    simp only [Pw.size]
    omega
  have hadd : pwAdd a b =
      some ⟨pa.cuts, List.zipWith Poly.add pa.segs pb.segs⟩ := by
    simp only [pwAdd, hpaeq, hpbeq, if_pos hsz]
  have hmul : pwMul a b =
      some ⟨pa.cuts, List.zipWith Poly.mul pa.segs pb.segs⟩ := by
    simp only [pwMul, hpaeq, hpbeq, if_pos hsz]
  -- the selected segment index is in range
  have hchpa := List.chain'_iff_pairwise.mpr hppa
  have hnlt : pa.segN t < pa.segs.length := by
    by_cases hA : t < pa.cuts.getD pa.size 0
    · exact (pa.segN_spec t hlenpa hchpa hpafront hA).2.2
    · have hhi := Pw.segNL_high pa t 0 (not_lt_of_le hpafront) (le_of_not_lt hA)
      have hpan : 0 < pa.segs.length := List.length_pos.mpr hpane
      show pa.segNL t 0 < pa.segs.length
      rw [hhi]
      show pa.segs.length - 1 < pa.segs.length
      omega
  have hszs : pa.segs.length = pb.segs.length := by
    simp only [Pw.size] at hsz
    exact hsz
  refine ⟨pa, pb, ⟨pa.cuts, List.zipWith Poly.add pa.segs pb.segs⟩,
    ⟨pa.cuts, List.zipWith Poly.mul pa.segs pb.segs⟩,
    hpaeq, hpbeq, hcc.symm, hadd, hmul, rfl, rfl, ?_, ?_⟩
  · rw [pw_zip_valueAt pa pb Poly.add (fun x y => x + y)
      (fun p q s => Poly.eval_add p q s) hcc hszs t hnlt, hvala, hvalb]
  · rw [pw_zip_valueAt pa pb Poly.mul (fun x y => x * y)
      (fun p q s => Poly.eval_mul p q s) hcc hszs t hnlt, hvala, hvalb]

/-- Witness for C3 at two concrete functions and `t = 3/4`. -/
theorem pw_add_mul_pointwise_witness :
    ∃ pa pb s m,
      partition ⟨[0, 1], [[0, 1]]⟩ (Pw.cuts ⟨[0, 1/2, 1], [[1], [2]]⟩) = some pa ∧
      partition ⟨[0, 1/2, 1], [[1], [2]]⟩ (Pw.cuts ⟨[0, 1], [[0, 1]]⟩) = some pb ∧
      pa.cuts = pb.cuts ∧
      pwAdd ⟨[0, 1], [[0, 1]]⟩ ⟨[0, 1/2, 1], [[1], [2]]⟩ = some s ∧
      pwMul ⟨[0, 1], [[0, 1]]⟩ ⟨[0, 1/2, 1], [[1], [2]]⟩ = some m ∧
      s.cuts = pa.cuts ∧ m.cuts = pa.cuts ∧
      s.valueAt (3/4) = Pw.valueAt ⟨[0, 1], [[0, 1]]⟩ (3/4) +
        Pw.valueAt ⟨[0, 1/2, 1], [[1], [2]]⟩ (3/4) ∧
      m.valueAt (3/4) = Pw.valueAt ⟨[0, 1], [[0, 1]]⟩ (3/4) *
        Pw.valueAt ⟨[0, 1/2, 1], [[1], [2]]⟩ (3/4) :=
  pw_add_mul_pointwise ⟨[0, 1], [[0, 1]]⟩ ⟨[0, 1/2, 1], [[1], [2]]⟩ (by decide)
    (by decide) (by decide) (by decide) (3/4) (by decide) (by decide)
    (by decide) (by decide)

/-- Claim C7 (amended): for every non-empty well-formed `pw` and endpoints
with `from ≠ to`, the cut sequence of `portion(pw, from, to)` starts at
`min(from, to)` and ends at `max(from, to)`, and when both endpoints select
the same segment of `pw` the result has exactly one segment.  (With
`from = to` the code returns the canonical empty function instead, see the
counterexample.) -/
theorem portion_endpoints_single_segment (pw : Pw) (hinv : pw.invariants = true)
    (hne : pw.segs ≠ []) (fm tv : ℚ) (hft : fm ≠ tv) :
    (portion pw fm tv).cuts.head? = some (min fm tv) ∧
    (portion pw fm tv).cuts.getLast? = some (max fm tv) ∧
    (pw.segN (min fm tv) = pw.segN (max fm tv) →
      (portion pw fm tv).segs.length = 1) := by
  rcases (Pw.invariants_iff pw).mp hinv with ⟨hs, -⟩ | ⟨hlen, hch⟩
  · exact absurd hs hne
  have houter : ¬(pw.segs = [] ∨ fm = tv) := by
    push_neg
    exact ⟨hne, hft⟩
  by_cases hcond : pw.segN (min fm tv) = pw.size - 1 ∨
      max fm tv < pw.cuts.getD (pw.segN (min fm tv) + 1) 0
  · have hport : portion pw fm tv =
        ⟨[min fm tv, max fm tv],
          [elem_portion pw (pw.segN (min fm tv)) (min fm tv) (max fm tv)]⟩ := by
      simp only [portion]
      rw [if_neg houter, if_pos hcond]
    rw [hport]
    exact ⟨rfl, rfl, fun _ => rfl⟩
  · have hnotsame : ¬pw.segN (min fm tv) = pw.segN (max fm tv) := fun h =>
      hcond (portion_single_branch_cond pw hlen hch hne _ _ h)
    by_cases hteq : max fm tv =
        (min fm tv :: (pw.cuts.drop (pw.segN (min fm tv) + 1)).take
          (pw.segNL (max fm tv) (pw.segN (min fm tv) + 1) + 1 -
            (pw.segN (min fm tv) + 1))).getLastD 0
    · have hport : portion pw fm tv =
          ⟨min fm tv :: (pw.cuts.drop (pw.segN (min fm tv) + 1)).take
              (pw.segNL (max fm tv) (pw.segN (min fm tv) + 1) + 1 -
                (pw.segN (min fm tv) + 1)),
            Poly.portion (pw.segs.getD (pw.segN (min fm tv)) [])
                (pw.segT (min fm tv) (pw.segN (min fm tv))) 1 ::
              ((pw.segs.drop (pw.segN (min fm tv) + 1)).take
                  (pw.segNL (max fm tv) (pw.segN (min fm tv) + 1) -
                    (pw.segN (min fm tv) + 1)) ++
                [Poly.portion
                  (pw.segs.getD (pw.segNL (max fm tv) (pw.segN (min fm tv) + 1)) [])
                  0 (pw.segT (max fm tv)
                    (pw.segNL (max fm tv) (pw.segN (min fm tv) + 1)))])⟩ := by
        simp only [portion]
        rw [if_neg houter, if_neg hcond, if_pos hteq]
      rw [hport]
      refine ⟨rfl, ?_, fun h => absurd h hnotsame⟩
      rw [getLast?_cons_getLastD, ← hteq]
    · have hport : portion pw fm tv =
          ⟨(min fm tv :: (pw.cuts.drop (pw.segN (min fm tv) + 1)).take
              (pw.segNL (max fm tv) (pw.segN (min fm tv) + 1) + 1 -
                (pw.segN (min fm tv) + 1))) ++ [max fm tv],
            Poly.portion (pw.segs.getD (pw.segN (min fm tv)) [])
                (pw.segT (min fm tv) (pw.segN (min fm tv))) 1 ::
              ((pw.segs.drop (pw.segN (min fm tv) + 1)).take
                  (pw.segNL (max fm tv) (pw.segN (min fm tv) + 1) -
                    (pw.segN (min fm tv) + 1)) ++
                [Poly.portion
                  (pw.segs.getD (pw.segNL (max fm tv) (pw.segN (min fm tv) + 1)) [])
                  0 (pw.segT (max fm tv)
                    (pw.segNL (max fm tv) (pw.segN (min fm tv) + 1)))])⟩ := by
        simp only [portion]
        rw [if_neg houter, if_neg hcond, if_neg hteq]
      rw [hport]
      exact ⟨rfl, List.getLast?_concat _, fun h => absurd h hnotsame⟩

/-- Witness for the amended C7: restricting the one-segment identity
function on `[0,1]` to `[1/4, 3/4]`. -/
theorem portion_endpoints_single_segment_witness :
    (portion ⟨[0, 1], [[0, 1]]⟩ (1/4) (3/4)).cuts.head? =
      some (min (1/4 : ℚ) (3/4)) ∧
    (portion ⟨[0, 1], [[0, 1]]⟩ (1/4) (3/4)).cuts.getLast? =
      some (max (1/4 : ℚ) (3/4)) ∧
    (Pw.segN ⟨[0, 1], [[0, 1]]⟩ (min (1/4 : ℚ) (3/4)) =
        Pw.segN ⟨[0, 1], [[0, 1]]⟩ (max (1/4 : ℚ) (3/4)) →
      (portion ⟨[0, 1], [[0, 1]]⟩ (1/4) (3/4)).segs.length = 1) :=
  portion_endpoints_single_segment ⟨[0, 1], [[0, 1]]⟩ (by decide) (by decide)
    (1/4) (3/4) (by decide)

/-- Claim C10: the claim asserts every read of `extraCuts` during
`partition` is in bounds, in particular when all of `extraCuts` lies
strictly before the domain.  Evaluating the code refutes this: with the
well-formed one-segment function on `[0,1]` and `extraCuts = [-1]`, the
pre-domain loop condition `c[ci] < pw.cuts.front() && ci < c.size()`
evaluates `c[1]` — one past the end — before the bounds test, an
out-of-bounds read (modelled as the `none` result). -/
theorem partition_pre_loop_reads_oob :
    Pw.invariants ⟨[0, 1], [[1]]⟩ = true ∧
    partition ⟨[0, 1], [[1]]⟩ [-1] = none := by
  refine ⟨by decide, by decide⟩

end Geom
